import Mathlib

set_option maxRecDepth 100000
set_option maxHeartbeats 1000000

/- Shallow embedding of the DiffRhythm mixed-language G2P core:
   src/g2p/g2p_generation.py  (character classifier, segmenter, dispatcher loop)
   src/g2p/g2p/cleaners.py    (per-language routing)
   src/g2p/g2p/spanish.py     (rule-based Spanish G2P engine, post-normalizer)
   src/g2p/g2p/text_tokenizers.py (TextTokenizer normalization around the
   external espeak backend).
   Python strings are modelled as Lean String/List Char; machine behaviour
   that can raise (IndexError, AttributeError, unknown language) is modelled
   with Except; the unbounded regex rewrite loop of special_map is modelled
   with an explicit fuel parameter so that its (non-)termination is provable. -/

/-! ## Character classifier (src/g2p/g2p_generation.py lines 28-53) -/

/-- Python `c in s` character membership, via the character list so that
it evaluates in the kernel. -/
def strHas (s : String) (c : Char) : Bool :=
  s.data.contains c

def is_chinese (c : Char) : Bool :=
  0x4e00 ≤ c.val && c.val ≤ 0x9fa5

def is_alphabet (c : Char) : Bool :=
  (0x41 ≤ c.val && c.val ≤ 0x5a) || (0x61 ≤ c.val && c.val ≤ 0x7a)

def is_spanish (c : Char) : Bool :=
  strHas "áéíóúüñÁÉÍÓÚÜÑ" c

def is_other (c : Char) : Bool :=
  !(is_chinese c || is_alphabet c || is_spanish c)

/-- The major Unicode letter blocks, as (first, last) scalar-value ranges:
ASCII and Latin-1 letters, Latin Extended and IPA, spacing modifier
letters, Greek, Cyrillic, Armenian, Hebrew, Arabic, Devanagari, Thai,
Georgian, Hangul Jamo, Latin Extended Additional, Hiragana, Katakana,
CJK Extension A, CJK Unified Ideographs, Yi, Hangul syllables, CJK
Compatibility Ideographs and the supplementary ideographic plane. -/
def letterRanges : List (UInt32 × UInt32) :=
  [(0x41, 0x5a), (0x61, 0x7a),
   (0xaa, 0xaa), (0xb5, 0xb5), (0xba, 0xba),
   (0xc0, 0xd6), (0xd8, 0xf6), (0xf8, 0x2c1), (0x2c6, 0x2d1),
   (0x386, 0x386), (0x388, 0x38a), (0x38c, 0x38c), (0x38e, 0x3a1),
   (0x3a3, 0x3f5), (0x3f7, 0x481), (0x48a, 0x52f),
   (0x531, 0x556), (0x561, 0x587),
   (0x5d0, 0x5ea), (0x620, 0x64a), (0x671, 0x6d3),
   (0x904, 0x939), (0x93d, 0x93d), (0x950, 0x950), (0x958, 0x961),
   (0xe01, 0xe30), (0xe32, 0xe33), (0xe40, 0xe46),
   (0x10a0, 0x10c5), (0x10d0, 0x10fa),
   (0x1100, 0x11ff), (0x1e00, 0x1eff),
   (0x3041, 0x3096), (0x309d, 0x309f),
   (0x30a1, 0x30fa), (0x30fc, 0x30ff), (0x31f0, 0x31ff),
   (0x3400, 0x4dbf), (0x4e00, 0x9fff), (0xa000, 0xa48c),
   (0xac00, 0xd7a3), (0xf900, 0xfaff), (0x20000, 0x2a6df)]

/-- Python `str.isalpha`, modelled as membership in the major Unicode
letter blocks (`letterRanges`).  This is a strict superset of the
character classifier's classes: CJK ideographs, ASCII letters and the
Spanish diacritics are alphabetic, and so are letters the classifier does
not recognize (Hangul, kana, Greek, Cyrillic, accented Latin beyond the
Spanish set, ...), which pass 1 nevertheless tags "other".  Digits,
punctuation, whitespace and symbols are non-alphabetic.  Letters outside
the listed blocks are outside the modelled domain; every universally
quantified theorem below uses this predicate only abstractly, so its
extension matters only at the concrete counterexample and witness
inputs, where it agrees with Python. -/
def pyIsAlpha (c : Char) : Bool :=
  letterRanges.any (fun r => r.1 ≤ c.val && c.val ≤ r.2)

/-- Python `str.isspace` restricted to ASCII whitespace. -/
def pyIsSpace (c : Char) : Bool :=
  c = ' ' || c = '\t' || c = '\n' || c = '\x0d' || c = '\x0b' || c = '\x0c'

/-- Python regex `\w` (unicode word character) on the modelled domain:
letters, ASCII digits and underscore. -/
def pyWordChar (c : Char) : Bool :=
  pyIsAlpha c || (('0' ≤ c && c ≤ '9') : Bool) || c = '_'

/-! ## Segmenter: get_segment (src/g2p/g2p_generation.py lines 56-133)

The three phases of the source are embedded separately:
pass 1 tags every character (`types`), pass 2 retags whole alphabetic
words that contain a Spanish-tagged character, and the final loop merges
the tagged characters into segments.  Characters are paired with their
tags so that the phases can be composed without index arithmetic. -/

/-- Pass 1 of get_segment: per-character tagging.  `prev` carries the tag
already assigned to the previous character (`types[i-1]` in the source);
the lookahead `rest.head?` is `text[i+1]`. -/
def pass1Aux : Option String → List Char → List (Char × String)
  | _, [] => []
  | prev, c :: rest =>
    let t :=
      if is_chinese c then "zh"
      else if is_spanish c then "es"
      else if is_alphabet c then
        (if prev = some "es" then "es"
         else match rest.head? with
           | some c2 => if is_spanish c2 then "es" else "en"
           | none => "en")
      else "other"
    (c, t) :: pass1Aux (some t) rest

def pass1Pairs (s : String) : List (Char × String) :=
  pass1Aux none s.data

/-- Pass 2 word-resolution rule applied to one maximal alphabetic run:
if any character of the run is tagged "es", every character of the run
whose tag is "en" or "es" is retagged "es". -/
def retagRun (run : List (Char × String)) : List (Char × String) :=
  if run.any (fun p => p.2 = "es") then
    run.map (fun p => if p.2 = "en" ∨ p.2 = "es" then (p.1, "es") else p)
  else run

/-- Pass 2 of get_segment: scan for maximal runs of alphabetic characters
(`str.isalpha` in the source) and apply `retagRun` to each.  The scan
consumes at least one pair per step, so `l.length + 1` fuel always
suffices; the fuel only makes the recursion structural. -/
def pass2Go : Nat → List (Char × String) → List (Char × String)
  | 0, l => l
  | _ + 1, [] => []
  | fuel + 1, p :: rest =>
    if pyIsAlpha p.1 then
      retagRun (p :: rest.takeWhile (fun q => pyIsAlpha q.1)) ++
        pass2Go fuel (rest.dropWhile (fun q => pyIsAlpha q.1))
    else
      p :: pass2Go fuel rest

def pass2 (l : List (Char × String)) : List (Char × String) :=
  pass2Go (l.length + 1) l

/-- The run-merge loop of get_segment (source lines 108-132), operating on
the (character, tag) pairs left by pass 2.  `acc` is `temp_seg`, `lang` is
`temp_lang`; the `flag` of the source only distinguishes the very first
character, which the caller handles. -/
def mergeLoop : List (Char × String) → List Char → String → List (List Char × String)
  | [], acc, lang => [(acc, lang)]
  | (c, t) :: rest, acc, lang =>
    if lang = "other" then
      if t = lang then mergeLoop rest (acc ++ [c]) lang
      else mergeLoop rest (acc ++ [c]) t
    else if t = lang then mergeLoop rest (acc ++ [c]) lang
    else if t = "other" then mergeLoop rest (acc ++ [c]) lang
    else (acc, lang) :: mergeLoop rest [c] t

/-- `get_segment(text)` from src/g2p/g2p_generation.py.  On empty input the
merge loop body never runs and the final `segments.append` emits the
initial `("", "")` pair, exactly as the source does. -/
def get_segment (s : String) : List (String × String) :=
  match pass2 (pass1Pairs s) with
  | [] => [("", "")]
  | p :: rest => (mergeLoop rest [p.1] p.2).map (fun q => (String.mk q.1, q.2))

/-- Ghost variant of the merge loop that keeps each character's tag inside
the accumulated segment; used only in proofs about get_segment. -/
def mergeRich : List (Char × String) → List (Char × String) → String →
    List (List (Char × String) × String)
  | [], acc, lang => [(acc, lang)]
  | (c, t) :: rest, acc, lang =>
    if lang = "other" then
      if t = lang then mergeRich rest (acc ++ [(c, t)]) lang
      else mergeRich rest (acc ++ [(c, t)]) t
    else if t = lang then mergeRich rest (acc ++ [(c, t)]) lang
    else if t = "other" then mergeRich rest (acc ++ [(c, t)]) lang
    else (acc, lang) :: mergeRich rest [(c, t)] t

def richSegments (s : String) : List (List (Char × String) × String) :=
  match pass2 (pass1Pairs s) with
  | [] => [([], "")]
  | p :: rest => mergeRich rest [p] p.2

/-- Concatenation of the text fields of a segment list. -/
def concatTexts (segs : List (String × String)) : String :=
  String.mk ((segs.map (fun p => p.1.data)).flatten)

/-! ## Spanish G2P tables (src/g2p/g2p/spanish.py lines 31-127)

Python dicts are embedded as association lists in source (insertion)
order; `d[k]` is `List.lookup`, `k in d` is `(List.lookup ..).isSome`,
and iteration over `d.items()` is iteration over the list. -/

def _VOWELS : String := "aeiouáéíóúü"

def _STRESSED_VOWELS : String := "áéíóú"

def _SPANISH_PHONEMES : List (Char × String) :=
  [('a', "AA"), ('e', "EH"), ('i', "IY"), ('o', "OW"), ('u', "UW"),
   ('á', "AA1"), ('é', "EH1"), ('í', "IY1"), ('ó', "OW1"), ('ú', "UW1"),
   ('ü', "UW"),
   ('b', "B"), ('v', "B"), ('c', "K"), ('d', "D"), ('f', "F"), ('g', "G"),
   ('h', ""), ('j', "HH"), ('k', "K"), ('l', "L"), ('m', "M"), ('n', "N"),
   ('ñ', "NY"), ('p', "P"), ('q', "K"), ('r', "R"), ('s', "S"), ('t', "T"),
   ('w', "W"), ('x', "K S"), ('y', "Y"), ('z', "S")]

def _DIGRAPHS : List (String × String) :=
  [("ch", "CH"), ("ll", "Y"), ("qu", "K"), ("rr", "RR")]

def _SPECIAL_CASES : List (String × String) :=
  [("ce", "S EH"), ("ci", "S IY"), ("ge", "HH EH"), ("gi", "HH IY"),
   ("gue", "G EH"), ("gui", "G IY"), ("güe", "G W EH"), ("güi", "G W IY"),
   ("que", "K EH"), ("qui", "K IY"),
   ("ya", "Y AA"), ("ye", "Y EH"), ("yi", "Y IY"), ("yo", "Y OW"), ("yu", "Y UW")]

def _EXCEPTION_WORDS : List (String × String) :=
  [("mexico", "M EH1 HH IY K OW"),
   ("méxico", "M EH1 HH IY K OW"),
   ("texas", "T EH1 HH AA S"),
   ("puerto rico", "P W EH1 R T OW RR IY1 K OW"),
   ("barcelona", "B AA R S EH L OW1 N AA"),
   ("valencia", "B AA L EH1 N S IY AA"),
   ("guerrero", "G EH RR EH1 R OW"),
   ("uruguay", "UW R UW G W AA1 Y"),
   ("paraguay", "P AA R AA G W AA1 Y"),
   ("buenos aires", "B W EH1 N OW S AA1 IY R EH S"),
   ("havana", "AA B AA1 N AA"),
   ("habana", "AA B AA1 N AA"),
   ("venezuela", "B EH N EH S W EH1 L AA"),
   ("chile", "CH IY1 L EH"),
   ("argentina", "AA R HH EH N T IY1 N AA"),
   ("andalucía", "AA N D AA L UW S IY1 AA"),
   ("sevilla", "S EH B IY1 Y AA"),
   ("españa", "EH S P AA1 NY AA"),
   ("paella", "P AA EH1 Y AA"),
   ("guillermo", "G IY Y EH1 R M OW")]

/-! ## String helpers shared by the Spanish engine -/

/-- Python `str.lower` on the modelled character domain (ASCII letters and
the uppercase Spanish diacritics). -/
def pyToLowerChar (c : Char) : Char :=
  if 0x41 ≤ c.val && c.val ≤ 0x5a then Char.ofNat (c.toNat + 32)
  else if c = 'Á' then 'á'
  else if c = 'É' then 'é'
  else if c = 'Í' then 'í'
  else if c = 'Ó' then 'ó'
  else if c = 'Ú' then 'ú'
  else if c = 'Ü' then 'ü'
  else if c = 'Ñ' then 'ñ'
  else c

def pyToLower (s : String) : String :=
  String.mk (s.data.map pyToLowerChar)

/-- Python `str.split()` (split on whitespace runs, dropping empty parts). -/
def splitWsGo : Nat → List Char → List (List Char)
  | 0, _ => []
  | _ + 1, [] => []
  | fuel + 1, c :: rest =>
    if pyIsSpace c then splitWsGo fuel rest
    else
      (c :: rest.takeWhile (fun d => !pyIsSpace d)) ::
        splitWsGo fuel (rest.dropWhile (fun d => !pyIsSpace d))

def splitWsL (l : List Char) : List (List Char) :=
  splitWsGo (l.length + 1) l

def splitWsS (s : String) : List String :=
  (splitWsL s.data).map String.mk

/-- Python `str.replace(pat, rep)`: replace all non-overlapping
occurrences, scanning left to right (fuelled; `s.length + 1` fuel always
suffices for non-empty `pat`). -/
def replaceAllGo (pat rep : List Char) : Nat → List Char → List Char
  | 0, s => s
  | _, [] => []
  | fuel + 1, c :: rest =>
    if pat.isPrefixOf (c :: rest) then
      rep ++ replaceAllGo pat rep fuel ((c :: rest).drop pat.length)
    else
      c :: replaceAllGo pat rep fuel rest

def replaceAll (pat rep s : List Char) : List Char :=
  if pat = [] then s else replaceAllGo pat rep (s.length + 1) s

/-! ## Spanish engine pipeline (src/g2p/g2p/spanish.py lines 357-581) -/

/-- `_preprocess_text`: lowercase, then strip every character outside
`[^\w\sáéíóúüñ]`. -/
def _preprocess_text (text : String) : String :=
  let t := pyToLower text
  String.mk (t.data.filter (fun c => pyWordChar c || pyIsSpace c || strHas "áéíóúüñ" c))

/-- Maximal runs of Spanish vowels (`_VOWEL_CLUSTER_RE.findall`). -/
def vowelClustersGo : Nat → List Char → List (List Char)
  | 0, _ => []
  | _ + 1, [] => []
  | fuel + 1, c :: rest =>
    if strHas _VOWELS c then
      (c :: rest.takeWhile (fun d => strHas _VOWELS d)) ::
        vowelClustersGo fuel (rest.dropWhile (fun d => strHas _VOWELS d))
    else vowelClustersGo fuel rest

def vowelClusters (l : List Char) : List (List Char) :=
  vowelClustersGo (l.length + 1) l

/-- `_count_syllables`: silent `h` removed, vowel clusters counted, mixed
weak/strong clusters collapsed, result clamped to at least 1.  The running
count is an `Int` because the Python int may go negative before the final
`max`. -/
def _count_syllables (word : String) : Nat :=
  let w := word.data.filter (fun c => c ≠ 'h')
  let clusters := vowelClusters w
  let raw : Int := clusters.foldl
    (fun acc cluster =>
      if 1 < cluster.length ∧
          0 < (cluster.filter (fun v => strHas "iuíú" v)).length ∧
          0 < (cluster.filter (fun v => strHas "aeoáéó" v)).length then
        acc - ((cluster.length : Int) - 1)
      else acc)
    (clusters.length : Int)
  (if raw < 1 then (1 : Int) else raw).toNat

/-- `_find_stress_syllable`.  Returns `none` exactly when the source would
raise `IndexError` (`word[-1]` on an empty word with no written accent). -/
def _find_stress_syllable (word : String) : Option Nat :=
  if word.data.any (fun c => strHas _STRESSED_VOWELS c) then
    let i2 := (word.data.reverse.findIdx (fun c => strHas _STRESSED_VOWELS c)) / 2
    some (if i2 ≤ _count_syllables word - 1 then i2 else _count_syllables word - 1)
  else
    match word.data.getLast? with
    | none => none
    | some c => if strHas "aeiouáéíóúns" c then some 1 else some 0

/-- `_handle_special_cases`: exception words return their phoneme string;
otherwise each digraph and special combination occurrence is wrapped in
underscore markers, digraphs first, in dict order. -/
def _handle_special_cases (word : String) : String :=
  match List.lookup word _EXCEPTION_WORDS with
  | some ph => ph
  | none =>
    let m1 := (_DIGRAPHS.map Prod.fst).foldl
      (fun acc d => replaceAll d.data ('_' :: d.data ++ ['_']) acc) word.data
    let m2 := (_SPECIAL_CASES.map Prod.fst).foldl
      (fun acc d => replaceAll d.data ('_' :: d.data ++ ['_']) acc) m1
    String.mk m2

def baseVowelPhonemes : List String := ["AA", "EH", "IY", "OW", "UW"]

/-- `_apply_spanish_stress_rules`.  The Python function mutates the list in
place and returns it; here the updated list is returned.  `none` models the
`IndexError` raised via `_find_stress_syllable` on an empty word. -/
def _apply_spanish_stress_rules (word : String) (phonemes : List String) :
    Option (List String) :=
  if phonemes.any (fun p => p.data.contains '1') then some phonemes
  else
    let syllable_count := _count_syllables word
    match _find_stress_syllable word with
    | none => none
    | some stress_idx =>
      if syllable_count ≤ 1 then some phonemes
      else
        let vowel_phonemes := (List.range phonemes.length).filter
          (fun i => decide ((phonemes.getD i "") ∈ baseVowelPhonemes))
        if vowel_phonemes ≠ [] ∧ stress_idx < vowel_phonemes.length then
          let pos := vowel_phonemes.getD (vowel_phonemes.length - (stress_idx + 1)) 0
          some (phonemes.set pos ((phonemes.getD pos "") ++ "1"))
        else some phonemes

/-- The character-to-phoneme emission scan inside `_word_to_phonemes`
(source lines 507-550), on the marker-wrapped word.  The branch at source
lines 516-526 (re-reading a `_..._` marked span) is unreachable — it
requires `processed_word[i] == '_'` immediately after the line-511 branch
has excluded that case — and is therefore not represented. -/
def emitScanGo : Nat → List Char → List String
  | 0, _ => []
  | _ + 1, [] => []
  | fuel + 1, c :: rest =>
    if c = '_' then emitScanGo fuel rest
    else
      match (match rest.head? with
             | some c2 => List.lookup (String.mk [c, c2]) _DIGRAPHS
             | none => none) with
      | some ph => ph :: emitScanGo fuel (rest.drop 1)
      | none =>
        if 3 ≤ (c :: rest).length ∧
            (List.lookup (String.mk ((c :: rest).take 3)) _SPECIAL_CASES).isSome then
          splitWsS ((List.lookup (String.mk ((c :: rest).take 3)) _SPECIAL_CASES).getD "") ++
            emitScanGo fuel (rest.drop 2)
        else if 2 ≤ (c :: rest).length ∧
            (List.lookup (String.mk ((c :: rest).take 2)) _SPECIAL_CASES).isSome then
          splitWsS ((List.lookup (String.mk ((c :: rest).take 2)) _SPECIAL_CASES).getD "") ++
            emitScanGo fuel (rest.drop 1)
        else if 1 ≤ (c :: rest).length ∧
            (List.lookup (String.mk ((c :: rest).take 1)) _SPECIAL_CASES).isSome then
          splitWsS ((List.lookup (String.mk ((c :: rest).take 1)) _SPECIAL_CASES).getD "") ++
            emitScanGo fuel rest
        else
          match List.lookup c _SPANISH_PHONEMES with
          | some ph => if ph = "" then emitScanGo fuel rest else ph :: emitScanGo fuel rest
          | none => emitScanGo fuel rest

def emitScan (l : List Char) : List String :=
  emitScanGo (l.length + 1) l

/-- `_word_to_phonemes`. -/
def _word_to_phonemes (word : String) : Option (List String) :=
  match List.lookup word _EXCEPTION_WORDS with
  | some ph => some (splitWsS ph)
  | none =>
    let processed_word := _handle_special_cases word
    let phonemes := emitScan processed_word.data
    _apply_spanish_stress_rules word phonemes

/-- `spanish_text_to_phonemes` (also exported as `text_to_sequence`). -/
def spanish_text_to_phonemes (text : String) : Option String :=
  let t := _preprocess_text text
  match List.lookup t _EXCEPTION_WORDS with
  | some ph => some ph
  | none =>
    match (splitWsS t).mapM _word_to_phonemes with
    | none => none
    | some lists => some (" ".intercalate lists.flatten)

/-! ## Error model

Python exceptions that the embedded code can raise.  `noTermination` is not
a Python exception: it is the fuel-exhaustion marker for the unbounded
`while re.search` loop of `special_map` (a run that returns `noTermination`
for every fuel diverges in the source). -/

inductive PyErr where
  | unknownLanguage (lang : String)
  | indexError
  | attributeError
  | noTermination
deriving DecidableEq, Repr

instance {ε α : Type} [DecidableEq ε] [DecidableEq α] : DecidableEq (Except ε α) :=
  fun x y =>
    match x, y with
    | .ok a, .ok b =>
      if h : a = b then isTrue (by rw [h]) else
        isFalse (fun hc => h (Except.ok.inj hc))
    | .error a, .error b =>
      if h : a = b then isTrue (by rw [h]) else
        isFalse (fun hc => h (Except.error.inj hc))
    | .ok _, .error _ => isFalse (fun hc => Except.noConfusion hc)
    | .error _, .ok _ => isFalse (fun hc => Except.noConfusion hc)

/-! ## Post-normalizer special_map (src/g2p/g2p/spanish.py lines 152-167, 599-616)

`special_map` compiles, for each rule `(PAT, REP)`, the regex
`(^|[_|])PAT([_|]|$)` (the rule's `|` made literal) and rewrites with
`\1REP\2` until no match remains.  The regex is modelled structurally:
group 1 is the start of string or one delimiter character, group 2 one
delimiter character or the end of string. -/

def _special_map : List (String × String) :=
  [("RR", "RR"), ("NY", "NY"),
   ("AA1", "AA1"), ("EH1", "EH1"), ("IY1", "IY1"), ("OW1", "OW1"), ("UW1", "UW1"),
   ("S|IY|OW1|N", "S|IY|OW1|N"), ("S|IY|AA1", "S|IY|AA1"),
   ("B|L", "B L"), ("P|L", "P L"), ("G|L", "G L"), ("K|L", "K L")]

def isDelim (c : Char) : Bool := c = '_' || c = '|'

def matchCore : List Char → List Char → Option (List Char)
  | [], s => some s
  | _ :: _, [] => none
  | p :: ps, c :: cs => if p = c then matchCore ps cs else none

def matchTail : List Char → Option (List Char × List Char)
  | [] => some ([], [])
  | c :: cs => if isDelim c then some ([c], cs) else none

/-- One attempt of the pattern `(^|[_|])PAT([_|]|$)` at the current
position.  `atStart` is true only at position 0, where the `^` alternative
applies (it is tried first, with backtracking into `[_|]`).  On success the
two captured groups and the remainder after the match are returned. -/
def tryMatch (atStart : Bool) (pat s : List Char) :
    Option (List Char × List Char × List Char) :=
  let viaDelim : Option (List Char × List Char × List Char) :=
    match s with
    | c :: cs =>
      if isDelim c then
        match matchCore pat cs with
        | some r =>
          match matchTail r with
          | some (g2, after) => some ([c], g2, after)
          | none => none
        | none => none
      else none
    | [] => none
  if atStart then
    match matchCore pat s with
    | some r =>
      match matchTail r with
      | some (g2, after) => some ([], g2, after)
      | none => viaDelim
    | none => viaDelim
  else viaDelim

def reSearchGo (pat : List Char) : Nat → Bool → List Char → Bool
  | 0, _, _ => false
  | _ + 1, atStart, [] => (tryMatch atStart pat []).isSome
  | fuel + 1, atStart, c :: rest =>
    (tryMatch atStart pat (c :: rest)).isSome || reSearchGo pat fuel false rest

/-- `re.search(r"(^|[_|])PAT([_|]|$)", s)` as a Bool. -/
def reSearch (pat s : List Char) : Bool :=
  reSearchGo pat (s.length + 1) true s

def subAllGo (pat rep : List Char) : Nat → Bool → List Char → List Char
  | 0, _, s => s
  | _ + 1, _, [] => []
  | fuel + 1, atStart, c :: rest =>
    match tryMatch atStart pat (c :: rest) with
    | some (g1, g2, after) => g1 ++ rep ++ g2 ++ subAllGo pat rep fuel false after
    | none => c :: subAllGo pat rep fuel false rest

/-- `re.sub(r"(^|[_|])PAT([_|]|$)", r"\1REP\2", s)` (all non-overlapping
occurrences, left to right). -/
def subAll (pat rep s : List Char) : List Char :=
  subAllGo pat rep (s.length + 1) true s

/-- The `while re.search(..): text = re.sub(..)` loop for one rule.  The
source loop is unbounded; fuel counts its iterations and exhaustion is
reported as `noTermination`. -/
def loopRule (pat rep : List Char) : Nat → List Char → Except PyErr (List Char)
  | 0, t => if reSearch pat t then .error .noTermination else .ok t
  | fuel + 1, t =>
    if reSearch pat t then loopRule pat rep fuel (subAll pat rep t) else .ok t

def specialMapGo (fuel : Nat) : List (String × String) → List Char →
    Except PyErr (List Char)
  | [], t => .ok t
  | (pat, rep) :: rs, t =>
    match loopRule pat.data rep.data fuel t with
    | .error e => .error e
    | .ok t2 => specialMapGo fuel rs t2

/-- `special_map(text)` with explicit iteration fuel per rule. -/
def special_map (fuel : Nat) (text : String) : Except PyErr String :=
  (specialMapGo fuel _special_map text.data).map String.mk

/-! ## _spanish_to_ipa: abbreviations and number normalization
(src/g2p/g2p/spanish.py lines 129-149, 183-355, 583-597) -/

def _abbreviations : List (String × String) :=
  [("sr", "señor"), ("sra", "señora"), ("srta", "señorita"),
   ("dr", "doctor"), ("dra", "doctora"), ("ing", "ingeniero"),
   ("lic", "licenciado"), ("prof", "profesor"), ("av", "avenida"),
   ("c", "calle"), ("tel", "teléfono"), ("pág", "página"),
   ("etc", "etcétera"), ("hospital", "hospital"), ("esq", "esquina")]

/-- Case-insensitive prefix test (the abbreviation regexes carry
`re.IGNORECASE`). -/
def lowerEqPrefix : List Char → List Char → Bool
  | [], _ => true
  | _ :: _, [] => false
  | a :: as, b :: bs => pyToLowerChar a = pyToLowerChar b && lowerEqPrefix as bs

/-- `re.sub(r"\babbr\b", rep, s, IGNORECASE)` for an abbreviation that
starts and ends with a word character.  `prev` is the character before the
current scan position in the original string (for the left `\b`). -/
def subWordBoundaryGo (abbr rep : List Char) : Nat → Option Char → List Char → List Char
  | 0, _, s => s
  | _ + 1, _, [] => []
  | fuel + 1, prev, c :: rest =>
    let leftOk := match prev with
      | none => true
      | some p => !pyWordChar p
    if leftOk && lowerEqPrefix abbr (c :: rest) then
      let matched := (c :: rest).take abbr.length
      let after := (c :: rest).drop abbr.length
      let rightOk := match after.head? with
        | none => true
        | some n2 => !pyWordChar n2
      if rightOk then rep ++ subWordBoundaryGo abbr rep fuel matched.getLast? after
      else c :: subWordBoundaryGo abbr rep fuel (some c) rest
    else c :: subWordBoundaryGo abbr rep fuel (some c) rest

def subWordBoundary (abbr rep : String) (s : List Char) : List Char :=
  subWordBoundaryGo abbr.data rep.data (s.length + 1) none s

/-- `_expand_abbreviations`. -/
def _expand_abbreviations (text : String) : String :=
  String.mk (_abbreviations.foldl (fun acc p => subWordBoundary p.1 p.2 acc) text.data)

def isDigitC (c : Char) : Bool := '0' ≤ c && c ≤ '9'

def digitComma (c : Char) : Bool := isDigitC c || c = ','

def digitCommaDot (c : Char) : Bool := isDigitC c || c = ',' || c = '.'

/-- Longest prefix of a character-class run that ends in a digit (the
backtracking of a trailing `[0-9]+`/`[0-9]` inside a greedy class run). -/
def trimToLastDigit (run : List Char) : List Char :=
  (run.reverse.dropWhile (fun c => !isDigitC c)).reverse

def toNatL (ds : List Char) : Nat :=
  ds.foldl (fun acc c => acc * 10 + (c.toNat - '0'.toNat)) 0

/-- `re.sub(_comma_number_re, _remove_commas, s)` with
`_comma_number_re = ([0-9][0-9\,]+[0-9])`. -/
def commaNumGo : Nat → List Char → List Char
  | 0, s => s
  | _ + 1, [] => []
  | fuel + 1, c :: rest =>
    if isDigitC c then
      let span := trimToLastDigit (c :: rest.takeWhile digitComma)
      if 3 ≤ span.length then
        span.filter (fun d => d ≠ ',') ++ commaNumGo fuel ((c :: rest).drop span.length)
      else c :: commaNumGo fuel rest
    else c :: commaNumGo fuel rest

/-- `re.sub(_euros_re, _expand_euros, s)` with `_euros_re = ([0-9\,]*[0-9]+)€`. -/
def eurosGo : Nat → List Char → List Char
  | 0, s => s
  | _ + 1, [] => []
  | fuel + 1, c :: rest =>
    if digitComma c then
      let span := trimToLastDigit (c :: rest.takeWhile digitComma)
      let after := (c :: rest).drop span.length
      if span ≠ [] ∧ after.head? = some '€' then
        let amount := span.filter (fun d => d ≠ ',')
        (amount ++ (if amount = ['1'] then " euro" else " euros").data) ++
          eurosGo fuel (after.drop 1)
      else c :: eurosGo fuel rest
    else c :: eurosGo fuel rest

def _get_ordinal_suffix (n : Nat) : String :=
  if n = 1 then "entero"
  else if n = 2 then "medio"
  else if n = 3 then "tercio"
  else if n = 4 then "cuarto"
  else if n = 5 then "quinto"
  else if n = 6 then "sexto"
  else if n = 7 then "séptimo"
  else if n = 8 then "octavo"
  else if n = 9 then "noveno"
  else if n = 10 then "décimo"
  else "avo"

def _expand_fraction (numerator denominator : Nat) : String :=
  if numerator = 1 ∧ denominator = 2 then "un medio"
  else if numerator = 1 ∧ denominator = 3 then "un tercio"
  else if numerator = 1 ∧ denominator = 4 then "un cuarto"
  else if numerator = 1 then
    (if denominator = 1 then "un entero"
     else "un " ++ _get_ordinal_suffix denominator)
  else toString numerator ++ " " ++ _get_ordinal_suffix denominator ++ "s"

/-- `re.sub(_fraction_re, _expand_fraction, s)` with
`_fraction_re = ([0-9]+)/([0-9]+)`. -/
def fractionGo : Nat → List Char → List Char
  | 0, s => s
  | _ + 1, [] => []
  | fuel + 1, c :: rest =>
    if isDigitC c then
      let d1 := c :: rest.takeWhile isDigitC
      match (c :: rest).drop d1.length with
      | '/' :: a2 =>
        let d2 := a2.takeWhile isDigitC
        if d2 ≠ [] then
          (_expand_fraction (toNatL d1) (toNatL d2)).data ++
            fractionGo fuel (a2.drop d2.length)
        else c :: fractionGo fuel rest
      | _ => c :: fractionGo fuel rest
    else c :: fractionGo fuel rest

/-- `re.sub(_decimal_number_re, _expand_decimal_point, s)` with
`_decimal_number_re = ([0-9]+\.[0-9]+)`. -/
def decimalGo : Nat → List Char → List Char
  | 0, s => s
  | _ + 1, [] => []
  | fuel + 1, c :: rest =>
    if isDigitC c then
      let d1 := c :: rest.takeWhile isDigitC
      match (c :: rest).drop d1.length with
      | '.' :: a2 =>
        let d2 := a2.takeWhile isDigitC
        if d2 ≠ [] then
          (d1 ++ " coma ".data ++ d2) ++ decimalGo fuel (a2.drop d2.length)
        else c :: decimalGo fuel rest
      | _ => c :: decimalGo fuel rest
    else c :: decimalGo fuel rest

/-- `re.sub(_percent_number_re, _expand_percent, s)` with
`_percent_number_re = ([0-9\.\,]*[0-9]+%)` (the `%` is part of the group
and is rewritten to " por ciento"). -/
def percentGo : Nat → List Char → List Char
  | 0, s => s
  | _ + 1, [] => []
  | fuel + 1, c :: rest =>
    if digitCommaDot c then
      let span := trimToLastDigit (c :: rest.takeWhile digitCommaDot)
      let after := (c :: rest).drop span.length
      if span ≠ [] ∧ after.head? = some '%' then
        (span ++ " por ciento".data) ++ percentGo fuel (after.drop 1)
      else c :: percentGo fuel rest
    else c :: percentGo fuel rest

/-- `_expand_ordinal`.  For numbers above 10 the source calls
`_expand_number(number)` with a plain int where a regex match object is
required (`int(m.group(0))` on an int) — an `AttributeError`. -/
def _expand_ordinal (number : Nat) (marker : Char) : Except PyErr String :=
  let gender := if marker = 'ª' then "a" else "o"
  if number = 1 then .ok ("primer" ++ gender)
  else if number = 2 then .ok ("segund" ++ gender)
  else if number = 3 then .ok ("tercer" ++ gender)
  else if number = 4 then .ok ("cuart" ++ gender)
  else if number = 5 then .ok ("quint" ++ gender)
  else if number = 6 then .ok ("sext" ++ gender)
  else if number = 7 then .ok ("séptim" ++ gender)
  else if number = 8 then .ok ("octav" ++ gender)
  else if number = 9 then .ok ("noven" ++ gender)
  else if number = 10 then .ok ("décim" ++ gender)
  else .error .attributeError

/-- `re.sub(_ordinal_re, _expand_ordinal, s)` with
`_ordinal_re = ([0-9]+)(º|ª)`. -/
def ordinalGo : Nat → List Char → Except PyErr (List Char)
  | 0, s => .ok s
  | _ + 1, [] => .ok []
  | fuel + 1, c :: rest =>
    if isDigitC c then
      let d1 := c :: rest.takeWhile isDigitC
      match (c :: rest).drop d1.length with
      | m :: a2 =>
        if m = 'º' ∨ m = 'ª' then
          match _expand_ordinal (toNatL d1) m with
          | .error e => .error e
          | .ok rep => (ordinalGo fuel a2).map (fun r => rep.data ++ r)
        else (ordinalGo fuel rest).map (fun r => c :: r)
      | [] => (ordinalGo fuel rest).map (fun r => c :: r)
    else (ordinalGo fuel rest).map (fun r => c :: r)

/-- `_expand_number` on the digits of one `[0-9]+` match. -/
def _expand_number (num : Nat) : String :=
  if num = 0 then "cero"
  else if num = 1 then "uno"
  else if num = 2 then "dos"
  else if 10 ≤ num ∧ num < 30 then
    (if num = 10 then "diez"
     else if num = 11 then "once"
     else if num = 12 then "doce"
     else if num = 13 then "trece"
     else if num = 14 then "catorce"
     else if num = 15 then "quince"
     else if num = 16 then "dieciséis"
     else if num = 17 then "diecisiete"
     else if num = 18 then "dieciocho"
     else if num = 19 then "diecinueve"
     else if num = 20 then "veinte"
     else if num = 21 then "veintiuno"
     else if num = 22 then "veintidós"
     else if num = 23 then "veintitrés"
     else if num = 24 then "veinticuatro"
     else if num = 25 then "veinticinco"
     else if num = 26 then "veintiséis"
     else if num = 27 then "veintisiete"
     else if num = 28 then "veintiocho"
     else if num = 29 then "veintinueve"
     else toString num)
  else toString num

/-- `re.sub(_number_re, _expand_number, s)` with `_number_re = [0-9]+`. -/
def numberGo : Nat → List Char → List Char
  | 0, s => s
  | _ + 1, [] => []
  | fuel + 1, c :: rest =>
    if isDigitC c then
      let d1 := c :: rest.takeWhile isDigitC
      (_expand_number (toNatL d1)).data ++ numberGo fuel ((c :: rest).drop d1.length)
    else c :: numberGo fuel rest

/-- `normalize_numbers`: the seven regex passes in source order. -/
def normalize_numbers (text : String) : Except PyErr String :=
  let s1 := commaNumGo (text.data.length + 1) text.data
  let s2 := eurosGo (s1.length + 1) s1
  let s3 := fractionGo (s2.length + 1) s2
  let s4 := decimalGo (s3.length + 1) s3
  let s5 := percentGo (s4.length + 1) s4
  match ordinalGo (s5.length + 1) s5 with
  | .error e => .error e
  | .ok s6 => .ok (String.mk (numberGo (s6.length + 1) s6))

/-- `_spanish_to_ipa`: lowercase, expand abbreviations, normalize numbers. -/
def _spanish_to_ipa (text : String) : Except PyErr String :=
  normalize_numbers (_expand_abbreviations (pyToLower text))

/-! ## TextTokenizer.__call__ normalization (src/g2p/g2p/text_tokenizers.py)

The espeak backend itself is external; it enters as a `String → String`
parameter.  Everything around it (punctuation conversion, character
filtering, whitespace collapsing, pipe post-processing) is source code and
is embedded. -/

/-- The preserved punctuation marks `",.?!;:'…"` (line 31). -/
def preservePunct (c : Char) : Bool :=
  c = ',' || c = '.' || c = '?' || c = '!' || c = ';' || c = ':' ||
  c = Char.ofNat 0x27 || c = '…'

def chinesePunctPairs : List (String × String) :=
  [("，", ","), ("。", "."), ("！", "!"), ("？", "?"), ("；", ";"),
   ("：", ":"), ("、", ","), ("‘", String.mk [Char.ofNat 0x27]),
   ("’", String.mk [Char.ofNat 0x27]), ("⋯", "…"), ("···", "…"),
   ("・・・", "…"), ("...", "…")]

def convert_chinese_punctuation (s : String) : String :=
  String.mk (chinesePunctPairs.foldl (fun acc p => replaceAll p.1.data p.2.data acc) s.data)

/-- Python `str.strip()`. -/
def pyStrip (s : List Char) : List Char :=
  ((s.dropWhile pyIsSpace).reverse.dropWhile pyIsSpace).reverse

/-- `re.sub(r"\s*([,\.\?!;:\'…])\s*", r"\1", s)`. -/
def punctSpaceGo : Nat → List Char → List Char
  | 0, s => s
  | _ + 1, [] => []
  | fuel + 1, c :: rest =>
    if preservePunct c then c :: punctSpaceGo fuel (rest.dropWhile pyIsSpace)
    else if pyIsSpace c then
      let ws := c :: rest.takeWhile pyIsSpace
      match (c :: rest).drop ws.length with
      | p :: after2 =>
        if preservePunct p then p :: punctSpaceGo fuel (after2.dropWhile pyIsSpace)
        else c :: punctSpaceGo fuel rest
      | [] => c :: punctSpaceGo fuel rest
    else c :: punctSpaceGo fuel rest

/-- `re.sub(r"\s+", " ", s)`. -/
def collapseWs : Nat → List Char → List Char
  | 0, s => s
  | _ + 1, [] => []
  | fuel + 1, c :: rest =>
    if pyIsSpace c then ' ' :: collapseWs fuel (rest.dropWhile pyIsSpace)
    else c :: collapseWs fuel rest

/-- `re.sub(r"([,\.\?!;:\'…])", r"|\1|", s)`. -/
def punctWrap (s : List Char) : List Char :=
  (s.map (fun c => if preservePunct c then ['|', c, '|'] else [c])).flatten

/-- `re.sub(r"\|+", "|", s)`. -/
def pipeCollapse : Nat → List Char → List Char
  | 0, s => s
  | _ + 1, [] => []
  | fuel + 1, c :: rest =>
    if c = '|' then '|' :: pipeCollapse fuel (rest.dropWhile (fun d => d = '|'))
    else c :: pipeCollapse fuel rest

/-- Python `str.rstrip("|")`. -/
def rstripPipes (s : List Char) : List Char :=
  (s.reverse.dropWhile (fun c => c = '|')).reverse

/-- `TextTokenizer.__call__` on a single string (lines 82-105), with the
espeak `backend.phonemize` as the `backend` parameter. -/
def ttCall (backend : String → String) (text : String) : String :=
  let line1 := (convert_chinese_punctuation (String.mk (pyStrip text.data))).data
  let line2 := line1.filter (fun c => pyWordChar c || pyIsSpace c || preservePunct c)
  let line3 := punctSpaceGo (line2.length + 1) line2
  let line4 := collapseWs (line3.length + 1) line3
  let ph := (backend (String.mk line4)).data
  String.mk (rstripPipes (pipeCollapse (ph.length + 1) (punctWrap ph)))

/-! ## spanish_to_ipa (src/g2p/g2p/spanish.py lines 618-647), str path -/

/-- `spanish_to_ipa(text, text_tokenizer)` for a string argument.
`text_tokenizer` is the `TextTokenizer.__call__` of the tokenizer object
the caller passes (the dispatcher passes the "de" tokenizer, i.e.
`ttCall` around the German espeak backend).  `phonemes[-1]` on an empty
phonemization is an IndexError. -/
def spanish_to_ipa (fuel : Nat) (text_tokenizer : String → String) (text : String) :
    Except PyErr String :=
  match _spanish_to_ipa text with
  | .error e => .error e
  | .ok t =>
    let phonemes := ttCall text_tokenizer t
    match phonemes.data.getLast? with
    | none => .error .indexError
    | some c =>
      let ph2 := if strHas "pbtdkgmnñfszxrRlw" c then phonemes ++ "|_" else phonemes
      special_map fuel ph2

/-! ## Dispatcher (src/g2p/g2p/cleaners.py, src/g2p/g2p_generation.py lines 136-151)

The non-Spanish language modules (mandarin/english/french/korean/german
`text_to_sequence` and `*_to_ipa`) are external collaborators not under
src/; they enter as total function parameters.  The Spanish tokenizer's
`text_to_sequence` is the Spanish module's own (text_tokenizers.py lines
61-63), and the tokenizer object handed to `spanish_to_ipa` is the "de"
one (cleaners.py line 34), whose `__call__` is `ttCall` around the German
espeak backend. -/

/-- `text_to_sequence` of the external language modules. -/
structure ExtTts where
  zh : String → String
  en : String → String
  fr : String → String
  ko : String → String
  de : String → String

/-- `*_to_ipa` of the external language modules (the zh one also takes the
whole sentence). -/
structure ExtIpa where
  zh : String → String → String
  en : String → String
  fr : String → String
  ko : String → String
  de : String → String

/-- The espeak `backend.phonemize` of each per-language TextTokenizer. -/
structure Backends where
  zh : String → String
  en : String → String
  fr : String → String
  ko : String → String
  de : String → String
  es : String → String

/-- `cjekfd_cleaners(text, sentence, language, text_tokenizers)`. -/
def cjekfd_cleaners (fuel : Nat) (tts : ExtTts) (ipa : ExtIpa) (bk : Backends)
    (text sentence language : String) : Except PyErr String :=
  if language = "zh" then .ok (ipa.zh (tts.zh text) sentence)
  else if language = "en" then .ok (ipa.en (tts.en text))
  else if language = "fr" then .ok (ipa.fr (tts.fr text))
  else if language = "ko" then .ok (ipa.ko (tts.ko text))
  else if language = "de" then .ok (ipa.de (tts.de text))
  else if language = "es" then
    match spanish_text_to_phonemes text with
    | none => .error .indexError
    | some t => spanish_to_ipa fuel bk.de t
  else .error (.unknownLanguage language)

/-- Modelled from the spec: `PhonemeBpeTokenizer.tokenize` lives in
g2p/g2p/__init__.py, which is not under src/.  Per §2 and §6 it routes the
segment through the cleaners and BPE-encodes the resulting phoneme string
into integer ids (`bpe`, an external map per §1). -/
def tokenize (fuel : Nat) (bpe : String → List Nat) (tts : ExtTts) (ipa : ExtIpa)
    (bk : Backends) (text sentence language : String) :
    Except PyErr (String × List Nat) :=
  match cjekfd_cleaners fuel tts ipa bk text sentence language with
  | .error e => .error e
  | .ok ph => .ok (ph, bpe ph)

/-- The per-segment loop of `chn_eng_g2p` (source lines 142-150).
`acc`/`toks` are `all_phoneme`/`all_tokens`; the `index == len-1` test is
`rest = []`.  `all_phoneme[-2]` on a too-short accumulator is an
IndexError; `[:-2]`/`[:-1]` drop the trailing boundary marker and token. -/
def cegLoop (fuel : Nat) (bpe : String → List Nat) (tts : ExtTts) (ipa : ExtIpa)
    (bk : Backends) (sentence : String) :
    List (String × String) → String → List Nat → Except PyErr (String × List Nat)
  | [], acc, toks => .ok (acc, toks)
  | (segText, segLang) :: rest, acc, toks =>
    match tokenize fuel bpe tts ipa bk segText sentence segLang with
    | .error e => .error e
    | .ok (ph, tok) =>
      let acc2 := acc ++ ph ++ "|"
      let toks2 := toks ++ tok
      if (segLang = "en" ∨ segLang = "es") ∧ rest = [] then
        if acc2.length < 2 then .error .indexError
        else if acc2.data.getD (acc2.length - 2) ' ' = '_' then
          cegLoop fuel bpe tts ipa bk sentence rest
            (String.mk acc2.data.dropLast.dropLast) toks2.dropLast
        else cegLoop fuel bpe tts ipa bk sentence rest acc2 toks2
      else cegLoop fuel bpe tts ipa bk sentence rest acc2 toks2

/-- `chn_eng_g2p(text)`. -/
def chn_eng_g2p (fuel : Nat) (bpe : String → List Nat) (tts : ExtTts) (ipa : ExtIpa)
    (bk : Backends) (text : String) : Except PyErr (String × List Nat) :=
  cegLoop fuel bpe tts ipa bk text (get_segment text) "" []

/-! ## Derived predicates used in the claim statements -/

/-- A character that the base table maps to a non-empty (voiced) phoneme. -/
def voicedChar (c : Char) : Bool :=
  match List.lookup c _SPANISH_PHONEMES with
  | some p => p ≠ ""
  | none => false

/-- No contiguous all-alphabetic block of the tagged character list
contains both an "en"-tagged and an "es"-tagged character. -/
def noEnEsMix (l : List (Char × String)) : Prop :=
  ∀ pre mid post, l = pre ++ (mid ++ post) →
    (∀ p ∈ mid, pyIsAlpha p.1 = true) →
    (∀ p ∈ mid, p.2 ≠ "en") ∨ (∀ p ∈ mid, p.2 ≠ "es")

/-! ## General lemmas -/

theorem lookup_val_mem {α β : Type} [BEq α] {l : List (α × β)} {k : α} {v : β}
    (h : List.lookup k l = some v) : ∃ kk, (kk, v) ∈ l := by
  induction l with
  | nil => simp [List.lookup] at h
  | cons p rest ih =>
    rw [List.lookup] at h
    split at h
    · refine ⟨p.1, List.mem_cons.mpr (Or.inl ?_)⟩
      rw [← Option.some.inj h]
    · obtain ⟨kk, hkk⟩ := ih h
      exact ⟨kk, List.mem_cons_of_mem _ hkk⟩

theorem pass1Aux_map_fst : ∀ (prev : Option String) (l : List Char),
    (pass1Aux prev l).map Prod.fst = l := by
  intro prev l
  induction l generalizing prev with
  | nil => rfl
  | cons c rest ih => simp only [pass1Aux, List.map_cons, ih]

theorem retagRun_map_fst (run : List (Char × String)) :
    (retagRun run).map Prod.fst = run.map Prod.fst := by
  unfold retagRun
  split
  · rw [List.map_map]
    apply List.map_congr_left
    intro p _
    by_cases h : p.2 = "en" ∨ p.2 = "es" <;> simp [h]
  · rfl

theorem pass2Go_map_fst : ∀ (fuel : Nat) (l : List (Char × String)),
    (pass2Go fuel l).map Prod.fst = l.map Prod.fst := by
  intro fuel
  induction fuel with
  | zero => intro l; rfl
  | succ n ih =>
    intro l
    cases l with
    | nil => rfl
    | cons p rest =>
      by_cases h : pyIsAlpha p.1 = true
      · simp only [pass2Go, h, if_true, List.map_append, ih, retagRun_map_fst]
        rw [← List.map_append, List.cons_append, List.takeWhile_append_dropWhile]
      · simp only [pass2Go, h, Bool.false_eq_true, if_false, List.map_cons, ih]

theorem pass2_map_fst (l : List (Char × String)) :
    (pass2 l).map Prod.fst = l.map Prod.fst :=
  pass2Go_map_fst _ l

theorem mergeLoop_flatten : ∀ (pairs : List (Char × String)) (acc : List Char) (lang : String),
    ((mergeLoop pairs acc lang).map (fun q => q.1)).flatten = acc ++ pairs.map Prod.fst := by
  intro pairs
  induction pairs with
  | nil => intro acc lang; simp [mergeLoop]
  | cons p rest ih =>
    intro acc lang
    obtain ⟨c, t⟩ := p
    simp only [mergeLoop]
    split_ifs <;> simp [ih]

theorem mergeLoop_texts_ne_nil : ∀ (pairs : List (Char × String)) (acc : List Char) (lang : String),
    acc ≠ [] → ∀ q ∈ mergeLoop pairs acc lang, q.1 ≠ [] := by
  intro pairs
  induction pairs with
  | nil =>
    intro acc lang hacc q hq
    rw [List.mem_singleton.mp hq]
    exact hacc
  | cons p rest ih =>
    intro acc lang hacc q hq
    obtain ⟨c, t⟩ := p
    simp only [mergeLoop] at hq
    split_ifs at hq
    · exact ih _ _ (by simp) q hq
    · exact ih _ _ (by simp) q hq
    · exact ih _ _ (by simp) q hq
    · exact ih _ _ (by simp) q hq
    · rcases List.mem_cons.mp hq with h | h
      · rw [h]; exact hacc
      · exact ih _ _ (by simp) q h

/-! ## Claim C1: segmentation partition -/

/-- C1: for every input string `s`, concatenating the text fields of the
segments returned by `get_segment s`, in order, reproduces `s` exactly. -/
theorem get_segment_partition (s : String) : concatTexts (get_segment s) = s := by
  have hfst : (pass2 (pass1Pairs s)).map Prod.fst = s.data :=
    (pass2_map_fst (pass1Pairs s)).trans (pass1Aux_map_fst none s.data)
  unfold get_segment concatTexts
  cases hp : pass2 (pass1Pairs s) with
  | nil =>
    rw [hp, List.map_nil] at hfst
    obtain ⟨d⟩ := s
    have hd : d = [] := by simpa using hfst.symm
    subst hd
    rfl
  | cons p rest =>
    rw [hp, List.map_cons] at hfst
    rw [List.map_map]
    show String.mk (((mergeLoop rest [p.1] p.2).map (fun q => q.1)).flatten) = s
    rw [mergeLoop_flatten, List.singleton_append, hfst]

/-! ## Claim C4: segment texts (corrected) -/

/-- C4 counterexample: `get_segment ""` is not the empty segment list — the
source's final `segments.append((temp_seg, temp_lang))` runs even when the
loop body never did, so the empty input yields one segment whose text (and
language tag) are empty. -/
theorem get_segment_empty_input_singleton : get_segment "" = [("", "")] := by decide

/-- C4 amended: for every non-empty input, every segment produced by
get_segment has non-empty text (the empty input instead yields the single
segment `("", "")`, see the counterexample). -/
theorem get_segment_nonempty_text (s : String) (h : s ≠ "") :
    ∀ seg ∈ get_segment s, seg.1 ≠ "" := by
  intro seg hseg
  have hfst : (pass2 (pass1Pairs s)).map Prod.fst = s.data :=
    (pass2_map_fst (pass1Pairs s)).trans (pass1Aux_map_fst none s.data)
  unfold get_segment at hseg
  cases hp : pass2 (pass1Pairs s) with
  | nil =>
    exfalso
    rw [hp, List.map_nil] at hfst
    apply h
    obtain ⟨d⟩ := s
    have hd : d = [] := by simpa using hfst.symm
    rw [hd]
  | cons p rest =>
    rw [hp] at hseg
    simp only [List.mem_map] at hseg
    obtain ⟨q, hq, hqe⟩ := hseg
    have hne := mergeLoop_texts_ne_nil rest [p.1] p.2 (by simp) q hq
    rw [← hqe]
    intro hc
    exact hne (by simpa using congrArg String.data (show String.mk q.1 = "" from hc))

theorem get_segment_nonempty_text_witness : (("hola", "en") : String × String).1 ≠ "" :=
  get_segment_nonempty_text "hola" (by decide) ("hola", "en") (by decide)

/-! ## Claim C7: Spanish exception precedence -/

/-- C7: `phonemize_es("méxico")` (the source's `spanish_text_to_phonemes`)
returns exactly "M EH1 HH IY K OW": the exception-dictionary entry wins
over all character-level rules for that exact text. -/
theorem phonemize_mexico_exception :
    spanish_text_to_phonemes "méxico" = some "M EH1 HH IY K OW" := by decide

/-! ## Claim C8: digraph/special-combination precedence on "guerra" -/

/-- C8: `phonemize_es("guerra")` treats `gue` as the silent-u hard-g
combination (fixed phonemes G EH, matched as the longest special
combination at that position, length 3 before 2 before 1) and emits no UW
for the silent u: the word-level phonemes are exactly G EH RR AA. -/
theorem phonemize_guerra_digraph :
    _word_to_phonemes "guerra" = some ["G", "EH", "RR", "AA"] ∧
    spanish_text_to_phonemes "guerra" = some "G EH RR AA" ∧
    "UW" ∉ ((_word_to_phonemes "guerra").getD []) := by decide

/-! ## Claim C3: the special_map rewrite loop does not terminate -/

/-- C3 (code bug): the first rule of `_special_map` is the identity rule
("RR", "RR") — meant, per its comment, to "keep rolled R as is".  Its
substitution leaves the text unchanged while the pattern keeps matching,
so `while re.search(..): text = re.sub(..)` never exits: on input "RR" the
loop diverges for every iteration bound, and the search still succeeds
after any number of rewrites. -/
theorem special_map_diverges_on_identity_rule :
    (∀ fuel, special_map fuel "RR" = .error .noTermination) ∧
    (∀ n, reSearch "RR".data ((fun t => subAll "RR".data "RR".data t)^[n] "RR".data) = true) := by
  have hsub : subAll "RR".data "RR".data "RR".data = "RR".data := by decide
  have hsearch : reSearch "RR".data "RR".data = true := by decide
  have hiter : ∀ n, (fun t => subAll "RR".data "RR".data t)^[n] "RR".data = "RR".data := by
    intro n
    induction n with
    | zero => rfl
    | succ m ih => rw [Function.iterate_succ_apply, hsub, ih]
  have hloop : ∀ fuel, loopRule "RR".data "RR".data fuel "RR".data = .error .noTermination := by
    intro fuel
    induction fuel with
    | zero => simp [loopRule, hsearch]
    | succ m ih => simp [loopRule, hsearch, hsub, ih]
  constructor
  · intro fuel
    show (specialMapGo fuel _special_map "RR".data).map String.mk = .error .noTermination
    simp [specialMapGo, _special_map, hloop fuel, Except.map]
  · intro n
    rw [hiter n]
    exact hsearch

/-! ## Claim C2: es output and the external backends (corrected) -/

/-- The es branch of the dispatcher, written out: the segment text goes
through the Spanish engine's `text_to_sequence`, but the result is then
handed to `spanish_to_ipa` together with the external "de" tokenizer
(cleaners.py line 34), whose backend therefore enters the es output. -/
theorem cjekfd_cleaners_es_branch (fuel : Nat) (tts : ExtTts) (ipa : ExtIpa)
    (bk : Backends) (text sentence : String) :
    cjekfd_cleaners fuel tts ipa bk text sentence "es" =
      (match spanish_text_to_phonemes text with
       | none => .error .indexError
       | some t => spanish_to_ipa fuel bk.de t) := rfl

/-- C2 counterexample: two tokenizer states that differ ONLY in the
external German espeak backend give different phoneme outputs for the same
"es" segment, so the es output is not obtained from the Spanish engine
alone and is not invariant under change of external phonemizer backends. -/
theorem es_output_depends_on_external_backend :
    cjekfd_cleaners 100 ⟨id, id, id, id, id⟩ ⟨(fun t _ => t), id, id, id, id⟩
        ⟨id, id, id, id, (fun _ => "AE"), id⟩ "sol" "sol" "es" = .ok "AE" ∧
    cjekfd_cleaners 100 ⟨id, id, id, id, id⟩ ⟨(fun t _ => t), id, id, id, id⟩
        ⟨id, id, id, id, (fun _ => "OY"), id⟩ "sol" "sol" "es" = .ok "OY" ∧
    (Except.ok "AE" : Except PyErr String) ≠ .ok "OY" :=
  ⟨by decide, by decide, by decide⟩

/-- C2 amended: the phoneme output for an es segment is the same across
any two runs that agree on the German ("de") tokenizer's espeak backend —
it is independent of all other external capabilities (the zh/en/fr/ko/de
text_to_sequence and *_to_ipa modules and the zh/en/fr/ko/es backends) —
but it does depend on the de backend, because `cjekfd_cleaners` passes
`text_tokenizers["de"]` to `spanish_to_ipa`, which phonemizes through it. -/
theorem es_output_depends_only_on_de_backend (fuel : Nat)
    (tts1 tts2 : ExtTts) (ipa1 ipa2 : ExtIpa) (bk1 bk2 : Backends)
    (text sentence1 sentence2 : String) (h : bk1.de = bk2.de) :
    cjekfd_cleaners fuel tts1 ipa1 bk1 text sentence1 "es" =
      cjekfd_cleaners fuel tts2 ipa2 bk2 text sentence2 "es" := by
  rw [cjekfd_cleaners_es_branch, cjekfd_cleaners_es_branch, h]

theorem es_output_depends_only_on_de_backend_witness :
    cjekfd_cleaners 100 ⟨id, id, id, id, id⟩ ⟨(fun t _ => t), id, id, id, id⟩
        ⟨id, id, id, id, (fun _ => "AE"), id⟩ "sol" "sol" "es" =
      cjekfd_cleaners 100 ⟨(fun _ => "zz"), id, id, id, id⟩
        ⟨(fun t _ => t), (fun _ => "qq"), id, id, id⟩
        ⟨(fun _ => "ww"), id, id, id, (fun _ => "AE"), (fun _ => "vv")⟩ "sol" "sol" "es" :=
  es_output_depends_only_on_de_backend 100 _ _ _ _ _ _ "sol" "sol" "sol" rfl

/-! ## Claim C10: _apply_spanish_stress_rules frame property (corrected) -/

theorem find_stress_isSome (word : String) (h : word ≠ "") :
    (_find_stress_syllable word).isSome = true := by
  unfold _find_stress_syllable
  by_cases ha : word.data.any (fun c => strHas _STRESSED_VOWELS c) = true
  · rw [if_pos ha]
    rfl
  · have hd : word.data ≠ [] := by
      intro hc
      apply h
      obtain ⟨d⟩ := word
      simp only at hc
      rw [hc]
    rw [if_neg ha]
    cases hgl : word.data.getLast? with
    | none => exact absurd (List.getLast?_eq_none_iff.mp hgl) hd
    | some c =>
      simp only [hgl]
      split <;> rfl

/-- Shape of `_apply_spanish_stress_rules` on inputs where it does not
raise: the list is returned unchanged, or exactly one element — a base
vowel phoneme — gets the suffix "1".  (Shared working lemma.) -/
theorem stress_rules_shape (word : String) (phonemes : List String)
    (h : word ≠ "" ∨ phonemes.any (fun p => p.data.contains '1') = true) :
    ∃ l, _apply_spanish_stress_rules word phonemes = some l ∧
      (l = phonemes ∨
        ∃ i, ∃ hi : i < phonemes.length,
          phonemes.get ⟨i, hi⟩ ∈ baseVowelPhonemes ∧
          l = phonemes.set i (phonemes.get ⟨i, hi⟩ ++ "1")) := by
  by_cases hany : phonemes.any (fun p => p.data.contains '1') = true
  · refine ⟨phonemes, ?_, Or.inl rfl⟩
    unfold _apply_spanish_stress_rules
    rw [if_pos hany]
  · have hw : word ≠ "" := by
      rcases h with h | h
      · exact h
      · exact absurd h hany
    obtain ⟨k, hk⟩ := Option.isSome_iff_exists.mp (find_stress_isSome word hw)
    by_cases hc : _count_syllables word ≤ 1
    · refine ⟨phonemes, ?_, Or.inl rfl⟩
      unfold _apply_spanish_stress_rules
      rw [if_neg hany]
      simp only [hk]
      rw [if_pos hc]
    · by_cases hcond : ((List.range phonemes.length).filter
          (fun i => decide ((phonemes.getD i "") ∈ baseVowelPhonemes))) ≠ [] ∧
          k < ((List.range phonemes.length).filter
          (fun i => decide ((phonemes.getD i "") ∈ baseVowelPhonemes))).length
      · set vp := (List.range phonemes.length).filter
          (fun i => decide ((phonemes.getD i "") ∈ baseVowelPhonemes)) with hvp
        have hlenpos : 0 < vp.length := List.length_pos.mpr hcond.1
        have hidx : vp.length - (k + 1) < vp.length := by omega
        set pos := vp.getD (vp.length - (k + 1)) 0 with hpos
        have hposget : pos = vp.get ⟨vp.length - (k + 1), hidx⟩ := by
          rw [hpos, List.getD_eq_getElem vp 0 hidx]
          rfl
        have hmemvp : pos ∈ vp := by
          rw [hposget]
          exact List.get_mem vp _ hidx
        have hposfacts := List.mem_filter.mp (by rw [hvp] at hmemvp; exact hmemvp)
        have hposlt : pos < phonemes.length := List.mem_range.mp hposfacts.1
        have hbase : phonemes.get ⟨pos, hposlt⟩ ∈ baseVowelPhonemes := by
          have := of_decide_eq_true hposfacts.2
          rwa [List.getD_eq_getElem phonemes "" hposlt] at this
        refine ⟨phonemes.set pos (phonemes.getD pos "" ++ "1"), ?_,
          Or.inr ⟨pos, hposlt, hbase, ?_⟩⟩
        · unfold _apply_spanish_stress_rules
          rw [if_neg hany]
          simp only [hk]
          rw [if_neg hc, ← hvp, if_pos hcond, ← hpos]
        · rw [List.getD_eq_getElem phonemes "" hposlt]
          rfl
      · refine ⟨phonemes, ?_, Or.inl rfl⟩
        unfold _apply_spanish_stress_rules
        rw [if_neg hany]
        simp only [hk]
        rw [if_neg hc, if_neg hcond]

/-- C10 counterexample: on the empty word with a stress-free phoneme list
the source raises (IndexError via `word[-1]` in `_find_stress_syllable`,
which `_apply_spanish_stress_rules` calls before its `syllable_count <= 1`
early return), so no list is returned at all. -/
theorem stress_rules_empty_word_raises :
    _apply_spanish_stress_rules "" ["AA"] = none := by decide

/-- C10 amended: for every phoneme list and every word that is non-empty
(or whenever some phoneme already contains "1"), `_apply_spanish_stress_rules`
returns a list of the same length whose elements equal the input elements,
except that at most one element — one holding a base vowel phoneme
(AA, EH, IY, OW, UW) — may get the suffix "1" appended; if any input
element already contains "1" the list is returned completely unchanged.
For the empty word with no existing stress marker the call instead raises
(see the counterexample). -/
theorem stress_rules_frame (word : String) (phonemes : List String)
    (h : word ≠ "" ∨ phonemes.any (fun p => p.data.contains '1') = true) :
    (phonemes.any (fun p => p.data.contains '1') = true →
      _apply_spanish_stress_rules word phonemes = some phonemes) ∧
    ∃ l, _apply_spanish_stress_rules word phonemes = some l ∧ l.length = phonemes.length ∧
      (l = phonemes ∨
        ∃ i, ∃ hi : i < phonemes.length,
          phonemes.get ⟨i, hi⟩ ∈ baseVowelPhonemes ∧
          l = phonemes.set i (phonemes.get ⟨i, hi⟩ ++ "1")) := by
  constructor
  · intro hany
    unfold _apply_spanish_stress_rules
    rw [if_pos hany]
  · obtain ⟨l, hl, hshape⟩ := stress_rules_shape word phonemes h
    refine ⟨l, hl, ?_, hshape⟩
    rcases hshape with hsh | ⟨i, hi, _, hset⟩
    · rw [hsh]
    · rw [hset, List.length_set]

theorem stress_rules_frame_witness :
    (((["K", "AA", "S", "AA"] : List String).any (fun p => p.data.contains '1') = true →
      _apply_spanish_stress_rules "casa" ["K", "AA", "S", "AA"] = some ["K", "AA", "S", "AA"]) ∧
    ∃ l, _apply_spanish_stress_rules "casa" ["K", "AA", "S", "AA"] = some l ∧
      l.length = (["K", "AA", "S", "AA"] : List String).length ∧
      (l = ["K", "AA", "S", "AA"] ∨
        ∃ i, ∃ hi : i < (["K", "AA", "S", "AA"] : List String).length,
          (["K", "AA", "S", "AA"] : List String).get ⟨i, hi⟩ ∈ baseVowelPhonemes ∧
          l = (["K", "AA", "S", "AA"] : List String).set i
                ((["K", "AA", "S", "AA"] : List String).get ⟨i, hi⟩ ++ "1"))) :=
  stress_rules_frame "casa" ["K", "AA", "S", "AA"] (Or.inl (by decide))

/-! ## Claim C5: non-empty phoneme lists (corrected) -/

theorem mem_replaceAllGo_wrap (pat : List Char) (c : Char) :
    ∀ (fuel : Nat) (s : List Char), c ∈ s →
      c ∈ replaceAllGo pat ('_' :: pat ++ ['_']) fuel s := by
  intro fuel
  induction fuel with
  | zero => intro s hs; simp only [replaceAllGo]; exact hs
  | succ n ih =>
    intro s hs
    cases s with
    | nil => cases hs
    | cons a rest =>
      simp only [replaceAllGo]
      by_cases hp : pat.isPrefixOf (a :: rest) = true
      · rw [if_pos hp]
        obtain ⟨t, ht⟩ := List.isPrefixOf_iff_prefix.mp hp
        rw [← ht] at hs
        rcases List.mem_append.mp hs with hc | hc
        · exact List.mem_append.mpr (Or.inl (by simp [hc]))
        · have hdrop : (a :: rest).drop pat.length = t := by
            rw [← ht, List.drop_left]
          exact List.mem_append.mpr (Or.inr (by rw [hdrop]; exact ih t hc))
      · rw [if_neg hp]
        rcases List.mem_cons.mp hs with hc | hc
        · exact List.mem_cons.mpr (Or.inl hc)
        · exact List.mem_cons.mpr (Or.inr (ih rest hc))

theorem mem_replaceAll_wrap (pat : String) (c : Char) (s : List Char) (h : c ∈ s) :
    c ∈ replaceAll pat.data ('_' :: pat.data ++ ['_']) s := by
  unfold replaceAll
  split
  · exact h
  · exact mem_replaceAllGo_wrap pat.data c _ s h

theorem mem_markFold (keys : List String) (c : Char) :
    ∀ s : List Char, c ∈ s →
      c ∈ keys.foldl (fun acc d => replaceAll d.data ('_' :: d.data ++ ['_']) acc) s := by
  induction keys with
  | nil => intro s hs; exact hs
  | cons k ks ih =>
    intro s hs
    exact ih _ (mem_replaceAll_wrap k c s hs)

theorem mem_handle_special_cases (word : String) (c : Char)
    (hexc : List.lookup word _EXCEPTION_WORDS = none) (h : c ∈ word.data) :
    c ∈ (_handle_special_cases word).data := by
  unfold _handle_special_cases
  simp only [hexc]
  exact mem_markFold _ c _ (mem_markFold _ c _ h)

theorem special_vals_split_ne : ∀ p ∈ _SPECIAL_CASES, splitWsS p.2 ≠ [] := by decide

theorem exception_vals_split_ne : ∀ p ∈ _EXCEPTION_WORDS, splitWsS p.2 ≠ [] := by decide

theorem emitScanGo_ne_nil : ∀ (fuel : Nat) (s : List Char), s.length < fuel →
    (∃ c ∈ s, voicedChar c = true) → emitScanGo fuel s ≠ [] := by
  intro fuel
  induction fuel with
  | zero => intro s hlen; exact absurd hlen (Nat.not_lt_zero _)
  | succ n ih =>
    intro s hlen hex
    cases s with
    | nil =>
      obtain ⟨c, hc, _⟩ := hex
      cases hc
    | cons a rest =>
      obtain ⟨c, hc, hvc⟩ := hex
      simp only [emitScanGo]
      by_cases ha : a = '_'
      · rw [if_pos ha]
        apply ih
        · simp only [List.length_cons] at hlen
          omega
        · refine ⟨c, ?_, hvc⟩
          rcases List.mem_cons.mp hc with h | h
          · exfalso
            rw [h, ha] at hvc
            exact absurd hvc (by decide)
          · exact h
      · rw [if_neg ha]
        cases hdig : (match rest.head? with
            | some c2 => List.lookup (String.mk [a, c2]) _DIGRAPHS
            | none => none) with
        | some ph =>
          show (ph :: emitScanGo n (rest.drop 1)) ≠ []
          exact List.cons_ne_nil _ _
        | none =>
          by_cases h3 : 3 ≤ (a :: rest).length ∧
              (List.lookup (String.mk ((a :: rest).take 3)) _SPECIAL_CASES).isSome = true
          · rw [if_pos h3]
            show (splitWsS ((List.lookup (String.mk ((a :: rest).take 3)) _SPECIAL_CASES).getD "") ++
                emitScanGo n (rest.drop 2)) ≠ []
            intro hcontra
            obtain ⟨hsplit, _⟩ := List.append_eq_nil.mp hcontra
            obtain ⟨v, hv⟩ := Option.isSome_iff_exists.mp h3.2
            rw [hv] at hsplit
            obtain ⟨kk, hkk⟩ := lookup_val_mem hv
            exact special_vals_split_ne _ hkk (by simpa using hsplit)
          · rw [if_neg h3]
            by_cases h2 : 2 ≤ (a :: rest).length ∧
                (List.lookup (String.mk ((a :: rest).take 2)) _SPECIAL_CASES).isSome = true
            · rw [if_pos h2]
              show (splitWsS ((List.lookup (String.mk ((a :: rest).take 2)) _SPECIAL_CASES).getD "") ++
                  emitScanGo n (rest.drop 1)) ≠ []
              intro hcontra
              obtain ⟨hsplit, _⟩ := List.append_eq_nil.mp hcontra
              obtain ⟨v, hv⟩ := Option.isSome_iff_exists.mp h2.2
              rw [hv] at hsplit
              obtain ⟨kk, hkk⟩ := lookup_val_mem hv
              exact special_vals_split_ne _ hkk (by simpa using hsplit)
            · rw [if_neg h2]
              by_cases h1 : 1 ≤ (a :: rest).length ∧
                  (List.lookup (String.mk ((a :: rest).take 1)) _SPECIAL_CASES).isSome = true
              · rw [if_pos h1]
                show (splitWsS ((List.lookup (String.mk ((a :: rest).take 1)) _SPECIAL_CASES).getD "") ++
                    emitScanGo n rest) ≠ []
                intro hcontra
                obtain ⟨hsplit, _⟩ := List.append_eq_nil.mp hcontra
                obtain ⟨v, hv⟩ := Option.isSome_iff_exists.mp h1.2
                rw [hv] at hsplit
                obtain ⟨kk, hkk⟩ := lookup_val_mem hv
                exact special_vals_split_ne _ hkk (by simpa using hsplit)
              · rw [if_neg h1]
                have hcrest : c = a ∨ c ∈ rest := List.mem_cons.mp hc
                cases hlk : List.lookup a _SPANISH_PHONEMES with
                | some ph =>
                  show (if ph = "" then emitScanGo n rest else ph :: emitScanGo n rest) ≠ []
                  by_cases hemp : ph = ""
                  · rw [if_pos hemp]
                    apply ih
                    · simp only [List.length_cons] at hlen
                      omega
                    · refine ⟨c, ?_, hvc⟩
                      rcases hcrest with h | h
                      · exfalso
                        rw [h] at hvc
                        unfold voicedChar at hvc
                        rw [hlk, hemp] at hvc
                        simp at hvc
                      · exact h
                  · rw [if_neg hemp]
                    exact List.cons_ne_nil _ _
                | none =>
                  show emitScanGo n rest ≠ []
                  apply ih
                  · simp only [List.length_cons] at hlen
                    omega
                  · refine ⟨c, ?_, hvc⟩
                    rcases hcrest with h | h
                    · exfalso
                      rw [h] at hvc
                      unfold voicedChar at hvc
                      rw [hlk] at hvc
                      simp at hvc
                    · exact h

/-- C5 counterexample: the word "1" reaches the per-word pipeline (the
pre-normalizer keeps `\w`, so digits survive), is non-empty, produces the
empty phoneme list, and none of its characters maps to a silent phoneme —
'1' is simply absent from the table and silently dropped. -/
theorem word_to_phonemes_digit_word_empty :
    _word_to_phonemes "1" = some [] ∧ ("1" : String) ≠ "" ∧
    ¬ (∀ c ∈ ("1" : String).data, List.lookup c _SPANISH_PHONEMES = some "") :=
  ⟨by decide, by decide, by decide⟩

/-- C5 amended: for every non-empty word processed by the per-word
pipeline, the emitted phoneme list is non-empty unless every character of
the word contributes no phoneme — i.e. is silent (`h`), a marker
underscore, or unmapped (e.g. a digit, dropped without error).
Contrapositive form: a word containing at least one character that the
base table maps to a non-empty phoneme never yields the empty list. -/
theorem word_to_phonemes_nonempty_of_voiced (w : String) (h1 : w ≠ "")
    (h2 : ∃ c ∈ w.data, voicedChar c = true) :
    ∃ r, _word_to_phonemes w = some r ∧ r ≠ [] := by
  unfold _word_to_phonemes
  cases hexc : List.lookup w _EXCEPTION_WORDS with
  | some ph =>
    refine ⟨splitWsS ph, rfl, ?_⟩
    obtain ⟨kk, hkk⟩ := lookup_val_mem hexc
    exact exception_vals_split_ne _ hkk
  | none =>
    have hmem : ∃ c ∈ (_handle_special_cases w).data, voicedChar c = true := by
      obtain ⟨c, hc, hvc⟩ := h2
      exact ⟨c, mem_handle_special_cases w c hexc hc, hvc⟩
    have hscan : emitScan (_handle_special_cases w).data ≠ [] := by
      unfold emitScan
      exact emitScanGo_ne_nil _ _ (Nat.lt_succ_self _) hmem
    obtain ⟨l, hl, hshape⟩ :=
      stress_rules_shape w (emitScan (_handle_special_cases w).data) (Or.inl h1)
    refine ⟨l, hl, ?_⟩
    rcases hshape with hsh | ⟨i, hi, _, hset⟩
    · rw [hsh]; exact hscan
    · rw [hset]
      intro hcontra
      apply hscan
      have hlen := congrArg List.length hcontra
      rw [List.length_set] at hlen
      exact List.length_eq_zero.mp hlen

theorem word_to_phonemes_nonempty_of_voiced_witness :
    ∃ r, _word_to_phonemes "sol" = some r ∧ r ≠ [] :=
  word_to_phonemes_nonempty_of_voiced "sol" (by decide) ⟨'s', by decide, by decide⟩

/-! ## Claim C9: dispatcher routing errors -/

theorem map_ne_error_unknown {α β : Type} {f : α → β} {x : Except PyErr α} {l : String}
    (hx : x ≠ .error (.unknownLanguage l)) : x.map f ≠ .error (.unknownLanguage l) := by
  cases x with
  | ok a => simp [Except.map]
  | error e => simpa [Except.map] using hx

theorem expand_ordinal_no_unknown (n : Nat) (m : Char) (l : String) :
    _expand_ordinal n m ≠ .error (.unknownLanguage l) := by
  unfold _expand_ordinal
  split_ifs <;> simp

theorem ordinalGo_no_unknown : ∀ (fuel : Nat) (s : List Char) (l : String),
    ordinalGo fuel s ≠ .error (.unknownLanguage l) := by
  intro fuel
  induction fuel with
  | zero => intro s l; simp [ordinalGo]
  | succ n ih =>
    intro s l
    cases s with
    | nil => simp [ordinalGo]
    | cons c rest =>
      simp only [ordinalGo]
      by_cases hd : isDigitC c = true
      · rw [if_pos hd]
        split
        · split
          · split
            · rename_i hexp
              intro hc
              have he := Except.error.inj hc
              rw [he] at hexp
              exact expand_ordinal_no_unknown _ _ l hexp
            · exact map_ne_error_unknown (ih _ _)
          · exact map_ne_error_unknown (ih _ _)
        · exact map_ne_error_unknown (ih _ _)
      · rw [if_neg hd]
        exact map_ne_error_unknown (ih _ _)

theorem normalize_numbers_no_unknown (t : String) (l : String) :
    normalize_numbers t ≠ .error (.unknownLanguage l) := by
  unfold normalize_numbers
  dsimp only
  split
  · rename_i e ho
    intro hc
    have he := Except.error.inj hc
    rw [he] at ho
    exact ordinalGo_no_unknown _ _ l ho
  · simp

theorem loopRule_no_unknown : ∀ (fuel : Nat) (pat rep t : List Char) (l : String),
    loopRule pat rep fuel t ≠ .error (.unknownLanguage l) := by
  intro fuel
  induction fuel with
  | zero =>
    intro pat rep t l
    simp only [loopRule]
    split <;> simp
  | succ n ih =>
    intro pat rep t l
    simp only [loopRule]
    split
    · exact ih _ _ _ _
    · simp

theorem specialMapGo_no_unknown : ∀ (rules : List (String × String)) (fuel : Nat)
    (t : List Char) (l : String), specialMapGo fuel rules t ≠ .error (.unknownLanguage l) := by
  intro rules
  induction rules with
  | nil => intro fuel t l; simp [specialMapGo]
  | cons r rs ih =>
    intro fuel t l
    obtain ⟨pat, rep⟩ := r
    simp only [specialMapGo]
    split
    · rename_i e hl
      intro hc
      exact loopRule_no_unknown _ _ _ _ l (hl.trans hc)
    · exact ih _ _ _

theorem special_map_no_unknown (fuel : Nat) (t : String) (l : String) :
    special_map fuel t ≠ .error (.unknownLanguage l) := by
  unfold special_map
  exact map_ne_error_unknown (specialMapGo_no_unknown _ _ _ _)

theorem spanish_to_ipa_no_unknown (fuel : Nat) (tok : String → String)
    (text : String) (l : String) :
    spanish_to_ipa fuel tok text ≠ .error (.unknownLanguage l) := by
  unfold spanish_to_ipa
  split
  · rename_i e hsp
    intro hc
    apply normalize_numbers_no_unknown (_expand_abbreviations (pyToLower text)) l
    have : _spanish_to_ipa text = .error (.unknownLanguage l) := hsp.trans hc
    unfold _spanish_to_ipa at this
    exact this
  · dsimp only
    split
    · simp
    · exact special_map_no_unknown _ _ _

/-- Routing outcome of cjekfd_cleaners: the "Unknown language" exception is
raised exactly for language tags outside the six registered handlers
(whatever the external capabilities and the Spanish pipeline do). -/
theorem cjekfd_unknown_iff (fuel : Nat) (tts : ExtTts) (ipa : ExtIpa) (bk : Backends)
    (text sentence language : String) :
    (∃ l, cjekfd_cleaners fuel tts ipa bk text sentence language =
        .error (.unknownLanguage l)) ↔
      language ∉ (["zh", "en", "fr", "ko", "de", "es"] : List String) := by
  unfold cjekfd_cleaners
  by_cases h1 : language = "zh"
  · subst h1; simp
  · rw [if_neg h1]
    by_cases h2 : language = "en"
    · subst h2; simp
    · rw [if_neg h2]
      by_cases h3 : language = "fr"
      · subst h3; simp
      · rw [if_neg h3]
        by_cases h4 : language = "ko"
        · subst h4; simp
        · rw [if_neg h4]
          by_cases h5 : language = "de"
          · subst h5; simp
          · rw [if_neg h5]
            by_cases h6 : language = "es"
            · rw [if_pos h6]
              constructor
              · rintro ⟨l, hl⟩
                exfalso
                split at hl
                · exact absurd hl (by simp)
                · exact spanish_to_ipa_no_unknown _ _ _ _ hl
              · intro hmem
                exact absurd (by simp [h6]) hmem
            · rw [if_neg h6]
              constructor
              · intro _
                simp [h1, h2, h3, h4, h5, h6]
              · intro _
                exact ⟨language, rfl⟩

theorem cjekfd_ok_registered {fuel : Nat} {tts : ExtTts} {ipa : ExtIpa} {bk : Backends}
    {text sentence language : String} {r : String}
    (h : cjekfd_cleaners fuel tts ipa bk text sentence language = .ok r) :
    language ∈ (["zh", "en", "fr", "ko", "de", "es"] : List String) := by
  by_contra hn
  obtain ⟨l, hl⟩ := (cjekfd_unknown_iff fuel tts ipa bk text sentence language).mpr hn
  rw [h] at hl
  cases hl

theorem cegLoop_ok_registered (fuel : Nat) (bpe : String → List Nat) (tts : ExtTts)
    (ipa : ExtIpa) (bk : Backends) (sentence : String) :
    ∀ (segs : List (String × String)) (acc : String) (toks : List Nat) (r : String × List Nat),
      cegLoop fuel bpe tts ipa bk sentence segs acc toks = .ok r →
      ∀ seg ∈ segs, seg.2 ∈ (["zh", "en", "fr", "ko", "de", "es"] : List String) := by
  intro segs
  induction segs with
  | nil => intro acc toks r _ seg hseg; cases hseg
  | cons s0 rest ih =>
    intro acc toks r hok seg hseg
    obtain ⟨segText, segLang⟩ := s0
    simp only [cegLoop] at hok
    split at hok
    · exact Except.noConfusion hok
    · rename_i ph tok htok
      have hreg : segLang ∈ (["zh", "en", "fr", "ko", "de", "es"] : List String) := by
        unfold tokenize at htok
        split at htok
        · exact Except.noConfusion htok
        · rename_i ph2 hcle
          exact cjekfd_ok_registered hcle
      rcases List.mem_cons.mp hseg with h | h
      · rw [h]; exact hreg
      · split_ifs at hok <;>
          first
            | exact Except.noConfusion hok
            | exact ih _ _ _ hok seg h

theorem chn_eng_g2p_fails_unregistered (fuel : Nat) (bpe : String → List Nat)
    (tts : ExtTts) (ipa : ExtIpa) (bk : Backends) (text : String)
    (h : ∃ seg ∈ get_segment text,
        seg.2 ∉ (["zh", "en", "fr", "ko", "de", "es"] : List String)) :
    ∀ r, chn_eng_g2p fuel bpe tts ipa bk text ≠ .ok r := by
  intro r hok
  obtain ⟨seg, hmem, hnreg⟩ := h
  unfold chn_eng_g2p at hok
  exact hnreg (cegLoop_ok_registered fuel bpe tts ipa bk text
    (get_segment text) "" [] r hok seg hmem)

/-- C9: the dispatcher's per-segment routing raises "Unknown language" if
and only if the segment's language tag is outside the registered handler
set {zh, en, fr, ko, de, es} — so, on account of routing, no registered
language ever raises — and when a segment of the input is unregistered the
whole chn_eng_g2p call fails with no partial output. -/
theorem dispatcher_routing_error_iff (fuel : Nat) (bpe : String → List Nat)
    (tts : ExtTts) (ipa : ExtIpa) (bk : Backends) (text sentence language : String) :
    ((∃ l, cjekfd_cleaners fuel tts ipa bk text sentence language =
        .error (.unknownLanguage l)) ↔
      language ∉ (["zh", "en", "fr", "ko", "de", "es"] : List String)) ∧
    ((∃ seg ∈ get_segment text,
        seg.2 ∉ (["zh", "en", "fr", "ko", "de", "es"] : List String)) →
      ∀ r, chn_eng_g2p fuel bpe tts ipa bk text ≠ .ok r) :=
  ⟨cjekfd_unknown_iff fuel tts ipa bk text sentence language,
   fun h => chn_eng_g2p_fails_unregistered fuel bpe tts ipa bk text h⟩

theorem dispatcher_routing_error_iff_witness :
    chn_eng_g2p 0 (fun _ => []) ⟨id, id, id, id, id⟩ ⟨(fun t _ => t), id, id, id, id⟩
      ⟨id, id, id, id, id, id⟩ "1" ≠ .ok ("", []) :=
  (dispatcher_routing_error_iff 0 (fun _ => []) ⟨id, id, id, id, id⟩
    ⟨(fun t _ => t), id, id, id, id⟩ ⟨id, id, id, id, id, id⟩ "1" "" "zh").2
    ⟨("1", "other"), by decide, by decide⟩ ("", [])

/-! ## Claim C6: word atomicity (corrected) -/

theorem pass2Go_nil (fuel : Nat) : pass2Go fuel [] = [] := by
  cases fuel <;> rfl

theorem pass2Go_zero (l : List (Char × String)) : pass2Go 0 l = l := by
  cases l <;> rfl

theorem dropWhile_head_false {α : Type} (p : α → Bool) :
    ∀ (l : List α) (d : α) (ds : List α), l.dropWhile p = d :: ds → p d = false := by
  intro l
  induction l with
  | nil => intro d ds h; cases h
  | cons a rest ih =>
    intro d ds h
    rw [List.dropWhile_cons] at h
    split at h
    · exact ih d ds h
    · rename_i hpa
      injection h with h1 _
      subst h1
      simpa using hpa

theorem pass2Go_head_of_not_alpha (fuel : Nat) (q : Char × String)
    (rest : List (Char × String)) (h : pyIsAlpha q.1 = false) :
    (pass2Go fuel (q :: rest)).head? = some q := by
  cases fuel with
  | zero => rfl
  | succ n => simp [pass2Go, h]

theorem retagRun_no_en (run : List (Char × String))
    (h : run.any (fun p => p.2 = "es") = true) :
    ∀ p ∈ retagRun run, p.2 ≠ "en" := by
  intro p hp
  unfold retagRun at hp
  rw [if_pos h] at hp
  obtain ⟨q, hq, hqe⟩ := List.mem_map.mp hp
  by_cases hcase : q.2 = "en" ∨ q.2 = "es"
  · rw [if_pos hcase] at hqe
    rw [← hqe]
    simp
  · rw [if_neg hcase] at hqe
    rw [← hqe]
    intro hc
    exact hcase (Or.inl hc)

theorem retagRun_no_mix (run : List (Char × String)) :
    (∀ p ∈ retagRun run, p.2 ≠ "en") ∨ (∀ p ∈ retagRun run, p.2 ≠ "es") := by
  by_cases h : run.any (fun p => p.2 = "es") = true
  · exact Or.inl (retagRun_no_en run h)
  · right
    unfold retagRun
    rw [if_neg h]
    intro p hp hc
    rw [List.any_eq_true] at h
    exact h ⟨p, hp, by simp [hc]⟩

theorem noEnEsMix_nil : noEnEsMix [] := by
  intro pre mid post heq _
  obtain ⟨-, hrest⟩ := List.append_eq_nil.mp heq.symm
  obtain ⟨hmid, -⟩ := List.append_eq_nil.mp hrest
  subst hmid
  left
  intro p hp
  cases hp

theorem noEnEsMix_pass2Go : ∀ (n fuel : Nat) (l : List (Char × String)),
    l.length ≤ n → l.length < fuel → noEnEsMix (pass2Go fuel l) := by
  intro n
  induction n with
  | zero =>
    intro fuel l hn _
    have hl : l = [] := List.length_eq_zero.mp (Nat.le_zero.mp hn)
    subst hl
    rw [pass2Go_nil]
    exact noEnEsMix_nil
  | succ n ih =>
    intro fuel l hn hf
    cases l with
    | nil => rw [pass2Go_nil]; exact noEnEsMix_nil
    | cons q rest =>
      cases fuel with
      | zero => exact absurd hf (Nat.not_lt_zero _)
      | succ fuel =>
        by_cases ha : pyIsAlpha q.1 = true
        · simp only [pass2Go, ha, if_true]
          have hmixR := retagRun_no_mix (q :: rest.takeWhile (fun p => pyIsAlpha p.1))
          have hTmix : noEnEsMix (pass2Go fuel (rest.dropWhile (fun p => pyIsAlpha p.1))) := by
            apply ih fuel
            · have h1 := List.IsSuffix.length_le
                (List.dropWhile_suffix (fun p : Char × String => pyIsAlpha p.1) (l := rest))
              simp only [List.length_cons] at hn
              omega
            · have h1 := List.IsSuffix.length_le
                (List.dropWhile_suffix (fun p : Char × String => pyIsAlpha p.1) (l := rest))
              simp only [List.length_cons] at hf
              omega
          have hThead : ∀ p, (pass2Go fuel (rest.dropWhile (fun p => pyIsAlpha p.1))).head? =
              some p → pyIsAlpha p.1 = false := by
            intro p hp
            cases hdw : rest.dropWhile (fun p => pyIsAlpha p.1) with
            | nil =>
              rw [hdw, pass2Go_nil] at hp
              cases hp
            | cons d ds =>
              have hd := dropWhile_head_false (fun p : Char × String => pyIsAlpha p.1) rest d ds hdw
              rw [hdw, pass2Go_head_of_not_alpha fuel d ds hd] at hp
              injection hp with hp1
              rw [← hp1]
              exact hd
          intro pre mid post heq halpha
          rcases List.append_eq_append_iff.mp heq with ⟨a2, hpre, hT⟩ | ⟨c2, hR, hrest2⟩
          · -- mid ++ post lives inside the pass2 tail
            exact hTmix a2 mid post hT halpha
          · -- the retagged run is pre ++ c2 and mid ++ post = c2 ++ tail
            rcases List.append_eq_append_iff.mp hrest2 with ⟨a2, hc2, hpost⟩ | ⟨m2, hmid, hT2⟩
            · -- mid is an infix of the retagged run (c2 = mid ++ a2)
              rcases hmixR with hno | hno
              · left
                intro p hp
                refine hno p ?_
                rw [hR, hc2]
                exact List.mem_append.mpr (Or.inr (List.mem_append.mpr (Or.inl hp)))
              · right
                intro p hp
                refine hno p ?_
                rw [hR, hc2]
                exact List.mem_append.mpr (Or.inr (List.mem_append.mpr (Or.inl hp)))
            · -- mid = c2 ++ m2 with m2 a prefix of the tail
              cases m2 with
              | nil =>
                rw [List.append_nil] at hmid
                rcases hmixR with hno | hno
                · left
                  intro p hp
                  refine hno p ?_
                  rw [hR, ← hmid]
                  exact List.mem_append.mpr (Or.inr hp)
                · right
                  intro p hp
                  refine hno p ?_
                  rw [hR, ← hmid]
                  exact List.mem_append.mpr (Or.inr hp)
              | cons d ds =>
                -- the first tail element d would have to be alphabetic: contradiction
                exfalso
                have hdhead : (pass2Go fuel (rest.dropWhile (fun p => pyIsAlpha p.1))).head? =
                    some d := by
                  rw [hT2]
                  rfl
                have hdfalse := hThead d hdhead
                have hdmem : d ∈ mid := by
                  rw [hmid]
                  exact List.mem_append.mpr (Or.inr (List.mem_cons_self _ _))
                rw [halpha d hdmem] at hdfalse
                cases hdfalse
        · simp only [pass2Go, ha, Bool.false_eq_true, if_false]
          intro pre mid post heq halpha
          cases pre with
          | nil =>
            cases mid with
            | nil =>
              left
              intro p hp
              cases hp
            | cons m ms =>
              exfalso
              rw [List.nil_append, List.cons_append] at heq
              injection heq with h1 _
              have hm : m ∈ m :: ms := List.mem_cons_self _ _
              have halpham := halpha m hm
              rw [← h1] at halpham
              rw [halpham] at ha
              exact ha rfl
          | cons p0 pre' =>
            rw [List.cons_append] at heq
            injection heq with _ h2
            exact ih fuel _ (by simp only [List.length_cons] at hn; omega)
              (by simp only [List.length_cons] at hf; omega) pre' mid post h2 halpha

theorem mergeRich_coherent : ∀ (pairs : List (Char × String))
    (acc : List (Char × String)) (lang : String),
    (∀ q ∈ acc, q.2 ≠ "other" → q.2 = lang) →
    ∀ seg ∈ mergeRich pairs acc lang, ∀ q ∈ seg.1, q.2 ≠ "other" → q.2 = seg.2 := by
  intro pairs
  induction pairs with
  | nil =>
    intro acc lang hinv seg hseg q hq hother
    obtain heq := List.mem_singleton.mp hseg
    subst heq
    exact hinv q hq hother
  | cons p rest ih =>
    intro acc lang hinv seg hseg q hq hother
    obtain ⟨c, t⟩ := p
    simp only [mergeRich] at hseg
    split_ifs at hseg with h1 h2 h3 h4
    · -- lang = "other", t = lang
      refine ih _ _ ?_ seg hseg q hq hother
      intro q0 hq0 ho0
      rcases List.mem_append.mp hq0 with h | h
      · exact hinv q0 h ho0
      · rw [List.mem_singleton.mp h]
        rw [List.mem_singleton.mp h] at ho0
        exact absurd (h2.trans h1) ho0
    · -- lang = "other", t ≠ lang: segment language becomes t
      refine ih _ _ ?_ seg hseg q hq hother
      intro q0 hq0 ho0
      rcases List.mem_append.mp hq0 with h | h
      · exact absurd (hinv q0 h ho0 |>.trans h1) ho0
      · rw [List.mem_singleton.mp h]
    · -- t = lang
      refine ih _ _ ?_ seg hseg q hq hother
      intro q0 hq0 ho0
      rcases List.mem_append.mp hq0 with h | h
      · exact hinv q0 h ho0
      · rw [List.mem_singleton.mp h]
        exact h3
    · -- t = "other": the glued character has tag "other"
      refine ih _ _ ?_ seg hseg q hq hother
      intro q0 hq0 ho0
      rcases List.mem_append.mp hq0 with h | h
      · exact hinv q0 h ho0
      · rw [List.mem_singleton.mp h] at ho0 ⊢
        exact absurd h4 ho0
    · -- genuine language change: close the segment, open a new one
      rcases List.mem_cons.mp hseg with h | h
      · subst h
        exact hinv q hq hother
      · refine ih _ _ ?_ seg h q hq hother
        intro q0 hq0 _
        rw [List.mem_singleton.mp hq0]

theorem mergeLoop_eq_mergeRich : ∀ (pairs : List (Char × String))
    (accR : List (Char × String)) (lang : String),
    mergeLoop pairs (accR.map Prod.fst) lang =
      (mergeRich pairs accR lang).map (fun seg => (seg.1.map Prod.fst, seg.2)) := by
  intro pairs
  induction pairs with
  | nil => intro accR lang; simp [mergeLoop, mergeRich]
  | cons p rest ih =>
    intro accR lang
    obtain ⟨c, t⟩ := p
    simp only [mergeLoop, mergeRich]
    have hsnoc : accR.map Prod.fst ++ [c] = (accR ++ [(c, t)]).map Prod.fst := by
      simp
    split_ifs
    · rw [hsnoc]; exact ih _ _
    · rw [hsnoc]; exact ih _ _
    · rw [hsnoc]; exact ih _ _
    · rw [hsnoc]; exact ih _ _
    · simp only [List.map_cons]
      rw [show [c] = [(c, t)].map Prod.fst from rfl]
      rw [ih]

theorem get_segment_eq_richSegments (s : String) :
    get_segment s = (richSegments s).map
      (fun seg => (String.mk (seg.1.map Prod.fst), seg.2)) := by
  unfold get_segment richSegments
  cases hp : pass2 (pass1Pairs s) with
  | nil => rfl
  | cons p rest =>
    show (mergeLoop rest [p.1] p.2).map (fun q => (String.mk q.1, q.2)) =
      (mergeRich rest [p] p.2).map (fun seg => (String.mk (seg.1.map Prod.fst), seg.2))
    rw [show [p.1] = [p].map Prod.fst from rfl, mergeLoop_eq_mergeRich]
    rw [List.map_map]
    rfl

/-! ## C6: en/es word atomicity -/

theorem is_alphabet_not_chinese (c : Char) (h : is_alphabet c = true) :
    is_chinese c = false := by
  unfold is_alphabet at h
  simp only [Bool.or_eq_true, Bool.and_eq_true, decide_eq_true_eq] at h
  have hn : ¬ (0x4e00 : UInt32) ≤ c.val := by
    rcases h with ⟨-, h2⟩ | ⟨-, h2⟩ <;>
    · intro hc
      rw [UInt32.le_def, BitVec.le_def] at h2 hc
      simp at h2 hc
      omega
  unfold is_chinese
  simp [hn]

theorem is_spanish_not_chinese (c : Char) (h : is_spanish c = true) :
    is_chinese c = false := by
  have hd : ("áéíóúüñÁÉÍÓÚÜÑ" : String).data =
      ['á', 'é', 'í', 'ó', 'ú', 'ü', 'ñ', 'Á', 'É', 'Í', 'Ó', 'Ú', 'Ü', 'Ñ'] := rfl
  unfold is_spanish strHas at h
  rw [hd] at h
  simp only [List.contains_eq_any_beq, List.any_eq_true, beq_iff_eq] at h
  obtain ⟨x, hx, rfl⟩ := h
  simp only [List.mem_cons, List.not_mem_nil, or_false] at hx
  rcases hx with rfl | rfl | rfl | rfl | rfl | rfl | rfl | rfl | rfl | rfl | rfl | rfl | rfl | rfl <;>
    decide

/-- Pass 1 gives every ASCII letter and every Spanish-diacritic letter an
"en" or an "es" tag: such characters are never CJK ideographs, so the
classifier falls through to the es/en branches. -/
theorem pass1Aux_latin_tag : ∀ (l : List Char) (prev : Option String) (q : Char × String),
    q ∈ pass1Aux prev l → (is_alphabet q.1 || is_spanish q.1) = true →
    q.2 = "en" ∨ q.2 = "es" := by
  intro l
  induction l with
  | nil => intro prev q hq _; cases hq
  | cons c rest ih =>
    intro prev q hq hgood
    simp only [pass1Aux] at hq
    rcases List.mem_cons.mp hq with hh | hh
    · subst hh
      simp only [Bool.or_eq_true] at hgood
      rcases hgood with hab | hsp
      · have hch : is_chinese c = false := is_alphabet_not_chinese c hab
        by_cases hsp2 : is_spanish c = true
        · right; simp [hch, hsp2]
        · by_cases hprev : prev = some "es"
          · right; simp [hch, hsp2, hab, hprev]
          · cases hre : rest.head? with
            | none => left; simp [hch, hsp2, hab, hprev, hre]
            | some c2 =>
              by_cases hc2 : is_spanish c2 = true
              · right; simp [hch, hsp2, hab, hprev, hre, hc2]
              · left; simp [hch, hsp2, hab, hprev, hre, hc2]
      · have hch : is_chinese c = false := is_spanish_not_chinese c hsp
        right; simp [hch, hsp]
    · exact ih _ q hh hgood

/-- Pass 2 preserves the en/es tagging of ASCII and Spanish letters:
`retagRun` only ever turns an "en" tag into "es". -/
theorem pass2Go_latin_tag : ∀ (fuel : Nat) (l : List (Char × String)),
    (∀ q ∈ l, (is_alphabet q.1 || is_spanish q.1) = true → q.2 = "en" ∨ q.2 = "es") →
    ∀ q ∈ pass2Go fuel l, (is_alphabet q.1 || is_spanish q.1) = true →
    q.2 = "en" ∨ q.2 = "es" := by
  intro fuel
  induction fuel with
  | zero => intro l hl q hq; rw [pass2Go_zero] at hq; exact hl q hq
  | succ n ih =>
    intro l hl q hq hgood
    cases l with
    | nil => rw [pass2Go_nil] at hq; cases hq
    | cons p rest =>
      rw [pass2Go] at hq
      by_cases hp : pyIsAlpha p.1 = true
      · rw [if_pos hp] at hq
        have hsub : ∀ q0 ∈ p :: rest.takeWhile (fun r => pyIsAlpha r.1), q0 ∈ p :: rest := by
          intro q0 hq0
          rcases List.mem_cons.mp hq0 with h | h
          · exact h ▸ List.mem_cons_self _ _
          · exact List.mem_cons_of_mem _ ((List.takeWhile_sublist _).subset h)
        rcases List.mem_append.mp hq with hm | hm
        · unfold retagRun at hm
          split at hm
          · rcases List.mem_map.mp hm with ⟨q0, hq0mem, hq0eq⟩
            by_cases hcase : q0.2 = "en" ∨ q0.2 = "es"
            · rw [if_pos hcase] at hq0eq
              rw [← hq0eq]
              right; rfl
            · rw [if_neg hcase] at hq0eq
              rw [← hq0eq] at hgood ⊢
              exact hl q0 (hsub q0 hq0mem) hgood
          · exact hl q (hsub q hm) hgood
        · refine ih _ ?_ q hm hgood
          intro q0 hq0 hg0
          exact hl q0 (List.mem_cons_of_mem _ ((List.dropWhile_sublist _).subset hq0)) hg0
      · rw [if_neg hp] at hq
        rcases List.mem_cons.mp hq with hh | hh
        · subst hh; exact hl q (List.mem_cons_self _ _) hgood
        · refine ih _ ?_ q hh hgood
          intro q0 hq0 hg0
          exact hl q0 (List.mem_cons_of_mem _ hq0) hg0

/-- The first segment the merge loop emits extends the accumulator `acc`:
every branch either grows `acc` or emits `acc` itself. -/
theorem mergeRich_head_ext : ∀ (pairs acc : List (Char × String)) (lang : String),
    ∃ ext lg rest2, mergeRich pairs acc lang = (acc ++ ext, lg) :: rest2 := by
  intro pairs
  induction pairs with
  | nil => intro acc lang; exact ⟨[], lang, [], by simp [mergeRich]⟩
  | cons p rest ih =>
    intro acc lang
    obtain ⟨c, t⟩ := p
    simp only [mergeRich]
    split_ifs with h1 h2 h3 h4
    · obtain ⟨ext, lg, rest2, heq⟩ := ih (acc ++ [(c, t)]) lang
      refine ⟨(c, t) :: ext, lg, rest2, ?_⟩
      rw [heq, List.append_assoc]
      rfl
    · obtain ⟨ext, lg, rest2, heq⟩ := ih (acc ++ [(c, t)]) t
      refine ⟨(c, t) :: ext, lg, rest2, ?_⟩
      rw [heq, List.append_assoc]
      rfl
    · obtain ⟨ext, lg, rest2, heq⟩ := ih (acc ++ [(c, t)]) lang
      refine ⟨(c, t) :: ext, lg, rest2, ?_⟩
      rw [heq, List.append_assoc]
      rfl
    · obtain ⟨ext, lg, rest2, heq⟩ := ih (acc ++ [(c, t)]) lang
      refine ⟨(c, t) :: ext, lg, rest2, ?_⟩
      rw [heq, List.append_assoc]
      rfl
    · exact ⟨[], lang, mergeRich rest [(c, t)] t, by simp⟩

/-- A block of pairs whose tags all equal the current open language is
glued into the accumulator without closing a segment. -/
theorem mergeRich_glue_block (post : List (Char × String)) :
    ∀ (mid acc : List (Char × String)) (lang : String),
    (∀ p ∈ mid, p.2 = lang) → lang ≠ "other" →
    mergeRich (mid ++ post) acc lang = mergeRich post (acc ++ mid) lang := by
  intro mid
  induction mid with
  | nil => intro acc lang _ _; simp
  | cons m mid' ih =>
    intro acc lang hmid hlang
    obtain ⟨c, t⟩ := m
    have ht : t = lang := hmid (c, t) (List.mem_cons_self _ _)
    rw [List.cons_append]
    simp only [mergeRich]
    rw [if_neg hlang, if_pos ht,
      ih (acc ++ [(c, t)]) lang (fun p hp => hmid p (List.mem_cons_of_mem _ hp)) hlang,
      List.append_assoc]
    rfl

/-- Core block lemma: a contiguous block of pairs uniformly tagged with a
single non-"other" language ends up inside one segment of the merge loop's
output, whatever precedes or follows it. -/
theorem mergeRich_block (mid post : List (Char × String)) (t : String)
    (hmid : ∀ p ∈ mid, p.2 = t) (ht : t ≠ "other") :
    ∀ (pre acc : List (Char × String)) (lang : String),
    ∃ A seg B u v, mergeRich (pre ++ (mid ++ post)) acc lang = A ++ seg :: B ∧
      seg.1 = u ++ (mid ++ v) := by
  intro pre
  induction pre with
  | nil =>
    intro acc lang
    rw [List.nil_append]
    cases mid with
    | nil =>
      obtain ⟨ext, lg, rest2, heq⟩ := mergeRich_head_ext ([] ++ post) acc lang
      exact ⟨[], (acc ++ ext, lg), rest2, acc ++ ext, [], heq, by simp⟩
    | cons m mid' =>
      obtain ⟨c, t0⟩ := m
      have ht0 : t0 = t := hmid (c, t0) (List.mem_cons_self _ _)
      have hmid' : ∀ p ∈ mid', p.2 = t := fun p hp => hmid p (List.mem_cons_of_mem _ hp)
      rw [List.cons_append]
      simp only [mergeRich]
      by_cases h1 : lang = "other"
      · rw [if_pos h1]
        by_cases h2 : t0 = lang
        · exact absurd (ht0.symm.trans (h2.trans h1)) ht
        · rw [if_neg h2,
            mergeRich_glue_block post mid' (acc ++ [(c, t0)]) t0
              (fun p hp => (hmid' p hp).trans ht0.symm) (fun hc => ht (ht0.symm.trans hc))]
          obtain ⟨ext, lg, rest2, heq⟩ := mergeRich_head_ext post ((acc ++ [(c, t0)]) ++ mid') t0
          exact ⟨[], (((acc ++ [(c, t0)]) ++ mid') ++ ext, lg), rest2, acc, ext, heq,
            by simp [List.append_assoc]⟩
      · rw [if_neg h1]
        by_cases h2 : t0 = lang
        · rw [if_pos h2,
            mergeRich_glue_block post mid' (acc ++ [(c, t0)]) lang
              (fun p hp => (hmid' p hp).trans (ht0.symm.trans h2)) h1]
          obtain ⟨ext, lg, rest2, heq⟩ := mergeRich_head_ext post ((acc ++ [(c, t0)]) ++ mid') lang
          exact ⟨[], (((acc ++ [(c, t0)]) ++ mid') ++ ext, lg), rest2, acc, ext, heq,
            by simp [List.append_assoc]⟩
        · by_cases h3 : t0 = "other"
          · exact absurd (ht0.symm.trans h3) ht
          · rw [if_neg h2, if_neg h3,
              mergeRich_glue_block post mid' [(c, t0)] t0
                (fun p hp => (hmid' p hp).trans ht0.symm) (fun hc => ht (ht0.symm.trans hc))]
            obtain ⟨ext, lg, rest2, heq⟩ := mergeRich_head_ext post ([(c, t0)] ++ mid') t0
            refine ⟨[(acc, lang)], (([(c, t0)] ++ mid') ++ ext, lg), rest2, [], ext, ?_, by simp⟩
            rw [heq]
            rfl
  | cons p0 pre' ih =>
    intro acc lang
    obtain ⟨c, t0⟩ := p0
    rw [List.cons_append]
    simp only [mergeRich]
    split_ifs with h1 h2 h3 h4
    · exact ih (acc ++ [(c, t0)]) lang
    · exact ih (acc ++ [(c, t0)]) t0
    · exact ih (acc ++ [(c, t0)]) lang
    · exact ih (acc ++ [(c, t0)]) lang
    · obtain ⟨A, seg, B, u, v, heq, hseg⟩ := ih [(c, t0)] t0
      exact ⟨(acc, lang) :: A, seg, B, u, v, by rw [heq]; rfl, hseg⟩

/-- Wrapper for `mergeRich_block` at the `richSegments` level, handling the
segmenter's special first character. -/
theorem block_in_one_segment (s : String) (pre mid post : List (Char × String)) (t : String)
    (hdecomp : pass2 (pass1Pairs s) = pre ++ (mid ++ post))
    (hmid : ∀ p ∈ mid, p.2 = t) (ht : t ≠ "other") :
    ∃ A seg B u v, richSegments s = A ++ seg :: B ∧ seg.1 = u ++ (mid ++ v) := by
  unfold richSegments
  rw [hdecomp]
  cases pre with
  | nil =>
    rw [List.nil_append]
    cases mid with
    | nil =>
      rw [List.nil_append]
      cases post with
      | nil => exact ⟨[], ([], ""), [], [], [], rfl, by simp⟩
      | cons q rest =>
        obtain ⟨ext, lg, rest2, heq⟩ := mergeRich_head_ext rest [q] q.2
        exact ⟨[], ([q] ++ ext, lg), rest2, [q] ++ ext, [], heq, by simp⟩
    | cons m mid' =>
      show ∃ A seg B u v, mergeRich (mid' ++ post) [m] m.2 = A ++ seg :: B ∧
        seg.1 = u ++ ((m :: mid') ++ v)
      have hmt : m.2 = t := hmid m (List.mem_cons_self _ _)
      rw [mergeRich_glue_block post mid' [m] m.2
        (fun p hp => (hmid p (List.mem_cons_of_mem _ hp)).trans hmt.symm)
        (fun hc => ht (hmt.symm.trans hc))]
      obtain ⟨ext, lg, rest2, heq⟩ := mergeRich_head_ext post ([m] ++ mid') m.2
      exact ⟨[], (([m] ++ mid') ++ ext, lg), rest2, [], ext, heq, by simp⟩
  | cons p0 pre' =>
    show ∃ A seg B u v, mergeRich (pre' ++ (mid ++ post)) [p0] p0.2 = A ++ seg :: B ∧
      seg.1 = u ++ (mid ++ v)
    exact mergeRich_block mid post t hmid ht pre' [p0] p0.2

/-- C6 counterexample: a maximal alphabetic run IS split across two
segments with different languages.  In "你a" both characters are
alphabetic (Python str.isalpha is true for CJK ideographs), yet
get_segment closes the zh segment and opens an en segment between them.
In "b 한é" the maximal alphabetic run 한é (the space before it is
non-alphabetic) is even split between an *en* and an *es* segment,
because 한 is alphabetic in Python but outside the classifier's classes
and therefore tagged "other", which the en segment absorbs. -/
theorem alphabetic_run_split_across_languages :
    (get_segment "你a" = [("你", "zh"), ("a", "en")] ∧
      pyIsAlpha '你' = true ∧ pyIsAlpha 'a' = true) ∧
    (get_segment "b 한é" = [("b 한", "en"), ("é", "es")] ∧
      pyIsAlpha '한' = true ∧ pyIsAlpha 'é' = true ∧ pyIsAlpha ' ' = false) := by
  exact ⟨⟨by decide, by decide, by decide⟩, ⟨by decide, by decide, by decide, by decide⟩⟩

/-- C6 amended: what survives of "a maximal alphabetic run is never split
across two segments with different languages" (spec 4.2).  (i) After the
word-level resolution of pass 2, no contiguous all-alphabetic block of
the tagged text carries both an "en" and an "es" tag; (ii) every ASCII or
Spanish-diacritic letter carries an "en" or an "es" tag, so by (i) an
alphabetic run of such letters is uniformly tagged; (iii) a contiguous
block uniformly tagged with one non-"other" language lies entirely inside
a single segment - hence a word of ASCII and Spanish letters is never
split, and in particular never between an en and an es segment;
(iv) within any produced segment, every character whose tag is not
"other" carries exactly the segment's language; (v) get_segment is the
tag-erasure of the tagged segments.  Runs that mix these letters with
CJK ideographs or with letters outside the classifier's classes can be
split (see the counterexample). -/
theorem word_atomicity_en_es (s : String) :
    noEnEsMix (pass2 (pass1Pairs s)) ∧
    (∀ q ∈ pass2 (pass1Pairs s), (is_alphabet q.1 || is_spanish q.1) = true →
      q.2 = "en" ∨ q.2 = "es") ∧
    (∀ pre mid post (t : String), pass2 (pass1Pairs s) = pre ++ (mid ++ post) →
      (∀ p ∈ mid, p.2 = t) → t ≠ "other" →
      ∃ A seg B u v, richSegments s = A ++ seg :: B ∧ seg.1 = u ++ (mid ++ v)) ∧
    (∀ seg ∈ richSegments s, ∀ q ∈ seg.1, q.2 ≠ "other" → q.2 = seg.2) ∧
    get_segment s = (richSegments s).map
      (fun seg => (String.mk (seg.1.map Prod.fst), seg.2)) := by
  refine ⟨?_, ?_, ?_, ?_, get_segment_eq_richSegments s⟩
  · exact noEnEsMix_pass2Go (pass1Pairs s).length _ _ le_rfl (Nat.lt_succ_self _)
  · intro q hq hgood
    rw [pass2] at hq
    exact pass2Go_latin_tag _ _
      (fun q0 hq0 hg0 => pass1Aux_latin_tag s.data none q0 hq0 hg0) q hq hgood
  · intro pre mid post t hdecomp hmid ht
    exact block_in_one_segment s pre mid post t hdecomp hmid ht
  · intro seg hseg q hq hother
    unfold richSegments at hseg
    revert hseg
    cases hp : pass2 (pass1Pairs s) with
    | nil =>
      intro hseg
      obtain heq := List.mem_singleton.mp hseg
      subst heq
      cases hq
    | cons p rest =>
      intro hseg
      refine mergeRich_coherent rest [p] p.2 ?_ seg hseg q hq hother
      intro q0 hq0 _
      rw [List.mem_singleton.mp hq0]

/-- C6 witness: the four en-tagged letters of "casa" form a uniformly
tagged block, and the block conjunct places them inside one segment. -/
theorem word_atomicity_en_es_witness :
    ∃ A seg B u v,
      richSegments "casa" = A ++ seg :: B ∧
      seg.1 = u ++ ([('c', "en"), ('a', "en"), ('s', "en"), ('a', "en")] ++ v) :=
  (word_atomicity_en_es "casa").2.2.1 []
    [('c', "en"), ('a', "en"), ('s', "en"), ('a', "en")] [] "en"
    (by decide) (by decide) (by decide)
